import Mathlib

/-!
# Verification of the browser-automation framework core

Shallow embedding of the two algorithmic components of the repository —
the proxy rotation pool (`src/automation/proxy_rotation.py`), the task
runner (`src/automation/task_runner.py`) and the retry primitive
(`src/automation/wait_strategies.py`) — together with proofs and
refutations of the specified properties.

Modelling conventions:
* Python wall-clock timestamps and latencies (floats read from
  `time.time()`) are modelled as natural numbers supplied as explicit
  arguments; the code only stores and compares them.
* `random.choice(healthy)` is modelled by an explicit index argument `r`
  taken modulo the length of the healthy list, so theorems quantify over
  every possible random draw.
* Network probes are opaque: a probe either succeeds (HTTP 200) or fails;
  the outcome of the probe of the record at position `i` is given by an
  explicit function `outcomes : Nat → Bool`.  `asyncio.gather` runs the
  probes concurrently but each probe mutates only its own record, so the
  final pool state equals the pointwise map over the records.
-/

namespace Automation

/-- Record for a single proxy server (`ProxyInfo` dataclass, proxy_rotation.py
lines 20-28).  `latency_ms`, `last_used` and `last_checked` are idealized
clock values. -/
structure ProxyInfo where
  url : String
  is_healthy : Bool := true
  latency_ms : Nat := 0
  fail_count : Nat := 0
  last_used : Nat := 0
  last_checked : Nat := 0
deriving Repr, DecidableEq

instance : Inhabited ProxyInfo := ⟨{ url := "" }⟩

/-- State of a `ProxyRotation` pool manager (proxy_rotation.py lines 50-64):
the records, the `max_failures` threshold, the shared round-robin cursor
`_index`, and the `_stats` counters. -/
structure ProxyRotation where
  proxies : List ProxyInfo
  max_failures : Nat
  index : Nat := 0
  rotations : Nat := 0
  failures : Nat := 0
deriving Repr, DecidableEq

/-- Pool construction (`ProxyRotation.__init__`): one fresh record per url,
in the given order. -/
def initPool (urls : List String) (max_failures : Nat) : ProxyRotation :=
  { proxies := urls.map (fun u => { url := u }), max_failures := max_failures }

/-- Python's `min(healthy, key=lambda p: p.last_used)`: fold keeping the
first element attaining the minimal `last_used` (Python `min` keeps the
earliest element on ties).  Elements are paired with their index in
`_proxies`. -/
def minByLastUsed : List (Nat × ProxyInfo) → Nat × ProxyInfo → Nat × ProxyInfo
  | [], best => best
  | x :: xs, best => minByLastUsed xs (if x.2.last_used < best.2.last_used then x else best)

/-- The filtered list `[p for p in self._proxies if p.is_healthy]`
(proxy_rotation.py line 76), with each record paired with its position in
`_proxies` so that the in-place mutation of the chosen record can be
rendered as a `List.set` at that position. -/
def healthyFrom : Nat → List ProxyInfo → List (Nat × ProxyInfo)
  | _, [] => []
  | i, p :: ps =>
    if p.is_healthy then (i, p) :: healthyFrom (i + 1) ps
    else healthyFrom (i + 1) ps

/-- The strategy dispatch of `get_next` (proxy_rotation.py lines 81-88) on
the nonempty healthy list `h0 :: hs`: the chosen (index, record) pair and
the new value of the round-robin cursor `_index` (only the fall-through
round-robin branch advances it). -/
def selectProxy (pool : ProxyRotation) (strategy : String) (r : Nat)
    (h0 : Nat × ProxyInfo) (hs : List (Nat × ProxyInfo)) : (Nat × ProxyInfo) × Nat :=
  if strategy = "random" then ((h0 :: hs).getD (r % (h0 :: hs).length) h0, pool.index)
  else if strategy = "least_used" then (minByLastUsed hs h0, pool.index)
  else ((h0 :: hs).getD (pool.index % (h0 :: hs).length) h0,
        pool.index % (h0 :: hs).length + 1)

/-- `ProxyRotation.get_next` (proxy_rotation.py lines 66-93).  Returns the
selected url (or `none` when no record is healthy) together with the
updated pool.  `r` models the draw of `random.choice`, `now` the value of
`time.time()` stored into `last_used`. -/
def get_next (pool : ProxyRotation) (strategy : String) (r now : Nat) :
    Option String × ProxyRotation :=
  match healthyFrom 0 pool.proxies with
  | [] => (none, pool)
  | h0 :: hs =>
    let sel := selectProxy pool strategy r h0 hs
    (some sel.1.2.url,
     { pool with
        proxies := pool.proxies.set sel.1.1 { sel.1.2 with last_used := now },
        index := sel.2,
        rotations := pool.rotations + 1 })

/-- The url returned by `get_next` (first component). -/
def get_next_url (pool : ProxyRotation) (strategy : String) (r now : Nat) :
    Option String :=
  (get_next pool strategy r now).1

/-- Effect of `report_failure` on the matched record (proxy_rotation.py
lines 99-102): increment `fail_count`, mark unhealthy when the count has
reached `max_failures`. -/
def failProxy (mf : Nat) (p : ProxyInfo) : ProxyInfo :=
  { p with
    fail_count := p.fail_count + 1,
    is_healthy := if mf ≤ p.fail_count + 1 then false else p.is_healthy }

/-- The `for ... if proxy.url == proxy_url: ...; break` loop of
`report_failure`: update the first record whose url matches, report
whether a match was found (the `_stats["failures"]` counter is only
incremented on a match). -/
def reportFailureGo (mf : Nat) (url : String) : List ProxyInfo → List ProxyInfo × Bool
  | [] => ([], false)
  | p :: ps =>
    if p.url = url then (failProxy mf p :: ps, true)
    else
      let rest := reportFailureGo mf url ps
      (p :: rest.1, rest.2)

/-- `ProxyRotation.report_failure` (proxy_rotation.py lines 95-104). -/
def report_failure (pool : ProxyRotation) (url : String) : ProxyRotation :=
  let rest := reportFailureGo pool.max_failures url pool.proxies
  { pool with
    proxies := rest.1,
    failures := pool.failures + (if rest.2 then 1 else 0) }

/-- Effect of `report_success` on the matched record (proxy_rotation.py
lines 110-111). -/
def healProxy (p : ProxyInfo) : ProxyInfo :=
  { p with fail_count := 0, is_healthy := true }

/-- First-match loop of `report_success`. -/
def reportSuccessGo (url : String) : List ProxyInfo → List ProxyInfo
  | [] => []
  | p :: ps =>
    if p.url = url then healProxy p :: ps
    else p :: reportSuccessGo url ps

/-- `ProxyRotation.report_success` (proxy_rotation.py lines 106-112). -/
def report_success (pool : ProxyRotation) (url : String) : ProxyRotation :=
  { pool with proxies := reportSuccessGo url pool.proxies }

/-- `ProxyRotation._check_single` (proxy_rotation.py lines 129-148) acting
on one record: a successful probe (HTTP 200) records latency, marks
healthy, resets `fail_count` and stamps `last_checked`; any other outcome
increments `fail_count` and applies the same threshold as
`report_failure`. -/
def check_single (mf : Nat) (ok : Bool) (lat now : Nat) (p : ProxyInfo) : ProxyInfo :=
  if ok then
    { p with latency_ms := lat, is_healthy := true, fail_count := 0, last_checked := now }
  else
    { p with
      fail_count := p.fail_count + 1,
      is_healthy := if mf ≤ p.fail_count + 1 then false else p.is_healthy,
      last_checked := now }

/-- The concurrent sweep of `health_check`: probe every record (the probe
of the record at position `i` succeeds exactly when `outcomes i`).  Each
probe mutates only its own record, so the gathered final state is the
pointwise map. -/
def checkAllFrom (mf : Nat) (outcomes : Nat → Bool) (lat now : Nat) :
    Nat → List ProxyInfo → List ProxyInfo
  | _, [] => []
  | i, p :: ps =>
    check_single mf (outcomes i) lat now p :: checkAllFrom mf outcomes lat now (i + 1) ps

/-- `ProxyRotation.health_check` (proxy_rotation.py lines 114-127): probe
every record concurrently, then tally healthy / unhealthy counts. -/
def health_check (pool : ProxyRotation) (outcomes : Nat → Bool) (lat now : Nat) :
    ProxyRotation × Nat × Nat :=
  let ps := checkAllFrom pool.max_failures outcomes lat now 0 pool.proxies
  let healthy := ps.countP (fun p => p.is_healthy)
  ({ pool with proxies := ps }, healthy, ps.length - healthy)

/-- One observable operation on a pool, used to state temporal properties
over arbitrary interleavings of the public API. -/
inductive PoolOp where
  | getNext (strategy : String) (r now : Nat)
  | reportFailure (url : String)
  | reportSuccess (url : String)
  | healthCheck (outcomes : Nat → Bool) (lat now : Nat)

/-- Apply one public-API operation to the pool state. -/
def poolStep (pool : ProxyRotation) : PoolOp → ProxyRotation
  | .getNext s r now => (get_next pool s r now).2
  | .reportFailure u => report_failure pool u
  | .reportSuccess u => report_success pool u
  | .healthCheck o lat now => (health_check pool o lat now).1

/-- Run a sequence of public-API operations. -/
def poolRun (pool : ProxyRotation) (ops : List PoolOp) : ProxyRotation :=
  ops.foldl poolStep pool

/-! ## Task runner (src/automation/task_runner.py) -/

/-- A Python value as far as the task runner observes one: the values a
task action may produce and that may be merged into the shared context.
`vnone` is Python `None`. -/
inductive Value where
  | vnone
  | vbool (b : Bool)
  | vint (n : Int)
  | vstr (s : String)
deriving Repr, DecidableEq

/-- Python truthiness of a value, as tested by
`if result.status == TaskStatus.COMPLETED and result.result_data:`
(task_runner.py line 97). -/
def Value.truthy : Value → Bool
  | .vnone => false
  | .vbool b => b
  | .vint n => n != 0
  | .vstr s => s != ""

/-- `TaskStatus` enum (task_runner.py lines 14-20). -/
inductive TaskStatus where
  | pending
  | running
  | completed
  | failed
  | skipped
  | cancelled
deriving Repr, DecidableEq

/-- `TaskResult` dataclass (task_runner.py lines 23-30); the wall-clock
`duration_ms` and `timestamp` fields are not modelled. -/
structure TaskResult where
  task_name : String
  status : TaskStatus
  result_data : Value := .vnone
  error : Option String := none
deriving Repr, DecidableEq

/-- `AutomationTask` (task_runner.py lines 46-60): name, dependency names
and retry count.  The action itself is opaque and supplied separately to
`execute`; `timeout` only classifies one way an attempt can fail and
`skip_on_failure` is declared but never read. -/
structure AutomationTask where
  name : String
  depends_on : List String := []
  retry_count : Nat := 0
deriving Repr, DecidableEq

/-- Registered tasks in registration order (`self._tasks`, an
insertion-ordered dict keyed by name; keys are unique). -/
abbrev TaskGraph := List AutomationTask

/-- Dict lookup `self._tasks.get(name)`: first task with the given name. -/
def findTask (tasks : TaskGraph) (name : String) : Option AutomationTask :=
  tasks.find? (fun t => t.name == name)

/-- A name is registered when the graph holds a task under it. -/
def isRegistered (tasks : TaskGraph) (name : String) : Bool :=
  (findTask tasks name).isSome

/-- Python dict assignment `m[k] = v`: overwrite in place when the key is
present, append otherwise. -/
def dictInsert {α : Type} (m : List (String × α)) (k : String) (v : α) :
    List (String × α) :=
  if m.any (fun x => x.1 == k) then m.map (fun x => if x.1 == k then (k, v) else x)
  else m ++ [(k, v)]

/-- Python dict lookup `m.get(k)`. -/
def dictGet {α : Type} (m : List (String × α)) (k : String) : Option α :=
  (m.find? (fun x => x.1 == k)).map (fun x => x.2)

/-- The inner `visit` closure of `TaskRunner._resolve_order`
(task_runner.py lines 152-160), on a state of (visited names, order so
far).  The Lean recursion is bounded by `fuel`; `resolve_order` passes
fuel exceeding the number of names occurring in the graph, which bounds
the depth of nested fresh visits (every nested call marks a previously
unvisited name as visited), so the fuel-out branch is never taken for the
fuel chosen there. -/
def visitF (tasks : TaskGraph) : Nat → String → List String × List String →
    List String × List String
  | 0, _, st => st
  | fuel + 1, name, st =>
    if name ∈ st.1 then st
    else
      let st1 : List String × List String := (name :: st.1, st.2)
      match findTask tasks name with
      | none => st1
      | some t =>
        let st2 := t.depends_on.foldl (fun s d => visitF tasks fuel d s) st1
        (st2.1, st2.2 ++ [name])

/-- Fuel sufficient for `visitF`: more than the number of name occurrences
in the graph. -/
def graphFuel (tasks : TaskGraph) : Nat :=
  tasks.length + (tasks.map (fun t => t.depends_on.length)).sum + 1

/-- `TaskRunner._resolve_order` (task_runner.py lines 148-164): visit every
registered name in registration order, collecting a depth-first
post-order. -/
def resolve_order (tasks : TaskGraph) : List String :=
  ((tasks.map (fun t => t.name)).foldl
    (fun st n => visitF tasks (graphFuel tasks) n st) ([], [])).2

/-- `TaskRunner._dependencies_met` (task_runner.py lines 141-146): every
declared dependency must be present in the result dict with status
`completed`. -/
def dependencies_met (results : List (String × TaskResult)) (t : AutomationTask) : Bool :=
  t.depends_on.all (fun dep =>
    match dictGet results dep with
    | some r => r.status == TaskStatus.completed
    | none => false)

/-- Outcome of one invocation of a task action: a produced value, or a
raised exception / `asyncio.TimeoutError` carrying its message. -/
inductive Outcome where
  | ok (v : Value)
  | err (msg : String)
deriving Repr, DecidableEq

/-- The retry loop of `_execute_task` (task_runner.py lines 119-133):
first success among attempts `attempt, attempt+1, ...` while attempts
remain, together with the number of invocations made. -/
def attemptLoop (act : Nat → Outcome) (attempt : Nat) : Nat → Option Value × Nat
  | 0 => (none, 0)
  | remaining + 1 =>
    match act attempt with
    | .ok v => (some v, 1)
    | .err _ =>
      let rest := attemptLoop act (attempt + 1) remaining
      (rest.1, rest.2 + 1)

/-- `TaskRunner._execute_task` (task_runner.py lines 115-139), returning
the produced `TaskResult` or a raised exception, plus the number of
action invocations.  On success the result is `completed` with the
produced value.  When every one of the `retry_count + 1` attempts fails,
the code evaluates `error=str(e)` after the loop; by Python 3 exception
semantics the `except Exception as e` target is deleted at the end of
each except clause, so `e` is unbound there and the statement raises
`UnboundLocalError` instead of building the FAILED result — modelled as
`Except.error`. -/
def execute_task (t : AutomationTask) (act : Nat → Outcome) :
    Except String TaskResult × Nat :=
  let r := attemptLoop act 0 (t.retry_count + 1)
  match r.1 with
  | some v =>
    (Except.ok { task_name := t.name, status := .completed, result_data := v }, r.2)
  | none =>
    (Except.error "UnboundLocalError: local variable e referenced before assignment", r.2)

/-- Mutable state threaded through `TaskRunner.execute`: the result dict
`self._results`, the shared context, and a log of `_execute_task` calls
(task name, number of action invocations) recording which actions were
invoked. -/
structure RunState where
  results : List (String × TaskResult)
  context : List (String × Value)
  invoked : List (String × Nat)
deriving Repr, DecidableEq

/-- The `skipped` record written when dependencies are unmet
(task_runner.py lines 88-91). -/
def skippedResult (name : String) : TaskResult :=
  { task_name := name, status := .skipped, error := some "Dependencies not met" }

/-- The per-task loop of `TaskRunner.execute` (task_runner.py lines
84-98).  Actions are supplied as `acts name context attempt`.  Returns
the final state and `some msg` when an exception escaped (aborting the
loop), `none` when the loop finished. -/
def executeLoop (tasks : TaskGraph)
    (acts : String → List (String × Value) → Nat → Outcome) :
    List String → RunState → RunState × Option String
  | [], st => (st, none)
  | name :: rest, st =>
    match findTask tasks name with
    | none => executeLoop tasks acts rest st
    | some t =>
      if dependencies_met st.results t then
        let er := execute_task t (acts name st.context)
        let st1 := { st with invoked := st.invoked ++ [(name, er.2)] }
        match er.1 with
        | Except.error msg => (st1, some msg)
        | Except.ok res =>
          let st2 := { st1 with results := dictInsert st1.results name res }
          let st3 :=
            if res.status == TaskStatus.completed && res.result_data.truthy then
              { st2 with context := dictInsert st2.context name res.result_data }
            else st2
          executeLoop tasks acts rest st3
      else
        executeLoop tasks acts rest
          { st with results := dictInsert st.results name (skippedResult name) }

/-- `WorkflowResult` (task_runner.py lines 33-43); wall-clock fields are
not modelled. -/
structure WorkflowResult where
  total_tasks : Nat
  completed : Nat
  failed : Nat
  skipped : Nat
  task_results : List TaskResult
deriving Repr, DecidableEq

/-- The aggregation at the end of `execute` (task_runner.py lines
100-113): simple tallies over the recorded results. -/
def mkWorkflowResult (results : List (String × TaskResult)) : WorkflowResult :=
  let rs := results.map (fun x => x.2)
  { total_tasks := rs.length,
    completed := rs.countP (fun r => r.status == TaskStatus.completed),
    failed := rs.countP (fun r => r.status == TaskStatus.failed),
    skipped := rs.countP (fun r => r.status == TaskStatus.skipped),
    task_results := rs }

/-- `TaskRunner.execute` (task_runner.py lines 75-113): compute the order,
run the per-task loop, and either propagate an escaped exception
(`Except.error`) or build the `WorkflowResult`. -/
def execute (tasks : TaskGraph)
    (acts : String → List (String × Value) → Nat → Outcome)
    (context : List (String × Value)) :
    RunState × Except String WorkflowResult :=
  let run := executeLoop tasks acts (resolve_order tasks)
    { results := [], context := context, invoked := [] }
  match run.2 with
  | some msg => (run.1, Except.error msg)
  | none => (run.1, Except.ok (mkWorkflowResult run.1.results))

/-! ## Retry primitive (src/automation/wait_strategies.py) -/

/-- The attempt loop of `WaitStrategies.retry_until` (wait_strategies.py
lines 105-116) over the remaining attempt budget, threading `last_error`
and `current_delay`.  Returns the result (`Except.error` models the final
`raise last_error`, whose payload is `none` when no attempt ever ran —
Python then raises `TypeError` from `raise None`), the number of action
invocations, and the list of sleeps performed between attempts.  Delays
are idealized as rationals. -/
def retryGo (act : Nat → Outcome) (backoff : ℚ) :
    Nat → Nat → Option String → ℚ → Except (Option String) Value × Nat × List ℚ
  | _, 0, lastErr, _ => (Except.error lastErr, 0, [])
  | attempt, remaining + 1, _, cur =>
    match act attempt with
    | .ok v => (Except.ok v, 1, [])
    | .err m =>
      if remaining = 0 then (Except.error (some m), 1, [])
      else
        let rest := retryGo act backoff (attempt + 1) remaining (some m) (cur * backoff)
        (rest.1, rest.2.1 + 1, cur :: rest.2.2)

/-- `WaitStrategies.retry_until` (wait_strategies.py lines 94-116). -/
def retry_until (act : Nat → Outcome) (max_retries : Nat) (delay backoff : ℚ) :
    Except (Option String) Value × Nat × List ℚ :=
  retryGo act backoff 0 max_retries none delay

/-! ## Dictionary helper lemmas -/

lemma find_map_overwrite {α : Type} (k : String) (v : α) :
    ∀ m : List (String × α), m.any (fun x => x.1 == k) = true →
      (m.map (fun x => if x.1 == k then (k, v) else x)).find? (fun x => x.1 == k) =
        some (k, v) := by
  intro m
  induction m with
  | nil => simp
  | cons x xs ih =>
    intro h
    cases hx : (x.1 == k) with
    | true => simp [List.find?, hx]
    | false =>
      rw [List.any_cons, hx, Bool.false_or] at h
      simp only [List.map_cons, hx, Bool.false_eq_true, if_false, List.find?, hx]
      exact ih h

lemma find_append_fresh {α : Type} (k : String) (v : α) :
    ∀ m : List (String × α), m.any (fun x => x.1 == k) = false →
      (m ++ [(k, v)]).find? (fun x => x.1 == k) = some (k, v) := by
  intro m
  induction m with
  | nil => simp [List.find?]
  | cons x xs ih =>
    simp only [List.any_cons, Bool.or_eq_false_iff]
    rintro ⟨hx, h⟩
    simp only [List.cons_append, List.find?, hx]
    exact ih h

/-- Reading back the key just written with Python dict assignment. -/
lemma dictGet_dictInsert_self {α : Type} (m : List (String × α)) (k : String) (v : α) :
    dictGet (dictInsert m k v) k = some v := by
  unfold dictGet dictInsert
  by_cases h : m.any (fun x => x.1 == k)
  · rw [if_pos h, find_map_overwrite k v m h]; rfl
  · rw [if_neg h, find_append_fresh k v m (Bool.eq_false_iff.mpr h)]; rfl

/-- Every key of the dict after an assignment is the assigned key or a key
that was already present. -/
lemma mem_dictInsert {α : Type} (m : List (String × α)) (k : String) (v : α) :
    ∀ kv ∈ dictInsert m k v, kv.1 = k ∨ kv ∈ m := by
  intro kv hkv
  unfold dictInsert at hkv
  by_cases h : m.any (fun x => x.1 == k)
  · rw [if_pos h] at hkv
    rcases List.mem_map.mp hkv with ⟨x, hx, heq⟩
    by_cases hxk : x.1 == k
    · left; rw [if_pos hxk] at heq; rw [← heq]
    · right; rw [if_neg hxk] at heq; rwa [← heq]
  · rw [if_neg h] at hkv
    rcases List.mem_append.mp hkv with hl | hr
    · right; exact hl
    · left; simp at hr; rw [hr]

/-- A key held by no entry of the dict reads as absent. -/
lemma dictGet_eq_none {α : Type} (m : List (String × α)) (k : String)
    (h : ∀ kv ∈ m, kv.1 ≠ k) : dictGet m k = none := by
  unfold dictGet
  rw [List.find?_eq_none.mpr]
  · rfl
  · intro x hx
    simpa using h x hx

/-! ## Step equations for the execute loop -/

lemma executeLoop_not_found (tasks : TaskGraph)
    (acts : String → List (String × Value) → Nat → Outcome)
    (name : String) (rest : List String) (st : RunState)
    (h : findTask tasks name = none) :
    executeLoop tasks acts (name :: rest) st = executeLoop tasks acts rest st := by
  simp [executeLoop, h]

/-- Unmet dependencies: the task is recorded `skipped` and the loop moves
on; context and invocation log are untouched by the step. -/
lemma executeLoop_skip (tasks : TaskGraph)
    (acts : String → List (String × Value) → Nat → Outcome)
    (name : String) (rest : List String) (st : RunState) (t : AutomationTask)
    (ht : findTask tasks name = some t)
    (hdep : dependencies_met st.results t = false) :
    executeLoop tasks acts (name :: rest) st =
      executeLoop tasks acts rest
        { st with results := dictInsert st.results name (skippedResult name) } := by
  simp [executeLoop, ht, hdep]

/-- The task ran and produced a result: it is recorded, and the produced
value is merged into the context exactly under the code's guard. -/
lemma executeLoop_ok (tasks : TaskGraph)
    (acts : String → List (String × Value) → Nat → Outcome)
    (name : String) (rest : List String) (st : RunState) (t : AutomationTask)
    (res : TaskResult)
    (ht : findTask tasks name = some t)
    (hdep : dependencies_met st.results t = true)
    (hok : (execute_task t (acts name st.context)).1 = Except.ok res) :
    executeLoop tasks acts (name :: rest) st =
      executeLoop tasks acts rest
        { results := dictInsert st.results name res,
          context :=
            if res.status == TaskStatus.completed && res.result_data.truthy then
              dictInsert st.context name res.result_data
            else st.context,
          invoked := st.invoked ++ [(name, (execute_task t (acts name st.context)).2)] } := by
  simp only [executeLoop, ht, hdep, if_true, hok]
  cases hc : (res.status == TaskStatus.completed && res.result_data.truthy) <;> simp [hc]

/-- The task ran and the retry loop exhausted all attempts: the
`UnboundLocalError` escapes, aborting the whole loop with the state as it
stood (plus the invocation-log entry of the aborted call). -/
lemma executeLoop_err (tasks : TaskGraph)
    (acts : String → List (String × Value) → Nat → Outcome)
    (name : String) (rest : List String) (st : RunState) (t : AutomationTask)
    (msg : String)
    (ht : findTask tasks name = some t)
    (hdep : dependencies_met st.results t = true)
    (herr : (execute_task t (acts name st.context)).1 = Except.error msg) :
    executeLoop tasks acts (name :: rest) st =
      ({ st with invoked := st.invoked ++ [(name, (execute_task t (acts name st.context)).2)] },
       some msg) := by
  simp [executeLoop, ht, hdep, herr]

/-- Inversion: a result returned (not raised) by `_execute_task` is the
`completed` record of the task, carrying the produced value. -/
lemma execute_task_ok (t : AutomationTask) (act : Nat → Outcome) (res : TaskResult)
    (hok : (execute_task t act).1 = Except.ok res) :
    res.task_name = t.name ∧ res.status = TaskStatus.completed ∧ res.error = none := by
  unfold execute_task at hok
  cases h : (attemptLoop act 0 (t.retry_count + 1)).1 with
  | none => simp [h] at hok
  | some v =>
    simp [h] at hok
    rw [← hok]
    exact ⟨rfl, rfl, rfl⟩

/-! ## Claim C2: cycle detection -/

/-- C2: the claim states that on a dependency cycle `execute` raises a
cycle-detected error before any task runs and never returns a
`WorkflowResult`.  The code has no cycle detection at all: on the
two-cycle `a ↔ b`, `_resolve_order` marks nodes visited on entry, so the
traversal terminates with the order `[b, a]`, `execute` then records both
tasks as skipped (each sees its dependency not completed), invokes no
action, and returns a normal `WorkflowResult` — no error is ever
raised. -/
theorem c2_cycle_not_detected :
    resolve_order [{ name := "a", depends_on := ["b"] },
                   { name := "b", depends_on := ["a"] }] = ["b", "a"] ∧
    (execute [{ name := "a", depends_on := ["b"] },
              { name := "b", depends_on := ["a"] }]
      (fun _ _ _ => Outcome.ok (Value.vint 1)) []).2 =
      Except.ok { total_tasks := 2, completed := 0, failed := 0, skipped := 2,
                  task_results := [skippedResult "b", skippedResult "a"] } ∧
    (execute [{ name := "a", depends_on := ["b"] },
              { name := "b", depends_on := ["a"] }]
      (fun _ _ _ => Outcome.ok (Value.vint 1)) []).1.invoked = [] :=
  ⟨rfl, rfl, rfl⟩

/-! ## Claim C4: failure is recorded, never raised -/

/-- C4: the claim states that a task failing every one of its
`retry_count + 1` attempts is recorded with status `failed` carrying the
last error, and `execute` still returns a `WorkflowResult`.  In the code,
the closing `return TaskResult(..., error=str(e))` of `_execute_task`
reads `e` after the retry loop, but the `except Exception as e` binding
is deleted at the end of each except clause (Python 3 exception
semantics), so the read raises `UnboundLocalError`; the exception
escapes `execute`, which returns no `WorkflowResult`.  Here: a task with
`retry_count = 1` whose action raises on both attempts. -/
theorem c4_exhausted_retries_raise_unbound_local :
    (execute_task { name := "a", retry_count := 1 } (fun _ => Outcome.err "boom")).1 =
      Except.error "UnboundLocalError: local variable e referenced before assignment" ∧
    (execute_task { name := "a", retry_count := 1 } (fun _ => Outcome.err "boom")).2 = 2 ∧
    (execute [{ name := "a", retry_count := 1 }] (fun _ _ _ => Outcome.err "boom") []).2 =
      Except.error "UnboundLocalError: local variable e referenced before assignment" :=
  ⟨rfl, rfl, rfl⟩

/-! ## Claim C8: health_check aggregate counts -/

/-- C8 counterexample: on a freshly constructed pool of 5 proxies (default
`max_failures = 3`) where exactly the probes of the first two records
fail and the other three succeed, a failed probe only raises
`fail_count` to 1, below the threshold 3, so no record is marked
unhealthy: `health_check` returns `{healthy: 5, unhealthy: 0}`, not the
claimed `{healthy: 3, unhealthy: 2}`. -/
theorem c8_fresh_pool_counts_counterexample :
    (health_check (initPool ["p1", "p2", "p3", "p4", "p5"] 3)
        (fun i => decide (2 ≤ i)) 5 9).2 = (5, 0) ∧
    (health_check (initPool ["p1", "p2", "p3", "p4", "p5"] 3)
        (fun i => decide (2 ≤ i)) 5 9).2 ≠ (3, 2) :=
  ⟨rfl, by decide⟩

/-- C8 (amended): on a freshly constructed pool of 5 proxies with
`max_failures = 1`, a health check in which exactly 3 probes succeed (and
2 fail) returns the aggregate counts `{healthy: 3, unhealthy: 2}`: each
failed probe raises the fresh record's `fail_count` to 1, which reaches
the threshold. -/
theorem c8_health_check_counts (u1 u2 u3 u4 u5 : String) (o : Nat → Bool)
    (lat now : Nat) (h : (List.range 5).countP o = 3) :
    (health_check (initPool [u1, u2, u3, u4, u5] 1) o lat now).2 = (3, 2) := by
  rw [show List.range 5 = [0, 1, 2, 3, 4] from rfl] at h
  cases h0 : o 0 <;> cases h1 : o 1 <;> cases h2 : o 2 <;> cases h3 : o 3 <;> cases h4 : o 4 <;>
    simp [List.countP_cons, h0, h1, h2, h3, h4] at h <;>
    simp [health_check, initPool, checkAllFrom, check_single, h0, h1, h2, h3, h4]

/-- Witness for C8 (amended): probes 0 and 1 fail, probes 2, 3, 4
succeed. -/
theorem c8_health_check_counts_witness :
    (health_check (initPool ["p1", "p2", "p3", "p4", "p5"] 1)
        (fun i => decide (2 ≤ i)) 5 9).2 = (3, 2) :=
  c8_health_check_counts "p1" "p2" "p3" "p4" "p5" (fun i => decide (2 ≤ i)) 5 9 (by decide)

/-! ## Claim C9: least-recently-used strategy -/

/-- C9 counterexample: the strategy string recognized by `get_next` is
`"least_used"`, not `"least_recently_used"` as the claim names it.  An
unrecognized string falls through to the round-robin branch: on a pool
whose second record has the strictly smallest `last_used`,
`get_next("least_recently_used")` returns the first record's url, while
the record with the smallest `last_used` is the second. -/
theorem c9_strategy_name_counterexample :
    get_next_url
      { proxies := [{ url := "u1", last_used := 5 }, { url := "u2", last_used := 1 }],
        max_failures := 3 } "least_recently_used" 0 9 = some "u1" ∧
    get_next_url
      { proxies := [{ url := "u1", last_used := 5 }, { url := "u2", last_used := 1 }],
        max_failures := 3 } "least_used" 0 9 = some "u2" :=
  ⟨rfl, rfl⟩

lemma minByLastUsed_mem : ∀ (xs : List (Nat × ProxyInfo)) (best : Nat × ProxyInfo),
    minByLastUsed xs best ∈ best :: xs := by
  intro xs
  induction xs with
  | nil => intro best; simp [minByLastUsed]
  | cons x xs ih =>
    intro best
    rw [minByLastUsed]
    rcases List.mem_cons.mp (ih (if x.2.last_used < best.2.last_used then x else best))
      with h | h
    · rw [h]
      by_cases hc : x.2.last_used < best.2.last_used
      · simp [hc]
      · simp [hc]
    · simp [List.mem_cons, Or.inr (Or.inr h)]

lemma minByLastUsed_le : ∀ (xs : List (Nat × ProxyInfo)) (best y : Nat × ProxyInfo),
    y ∈ best :: xs → (minByLastUsed xs best).2.last_used ≤ y.2.last_used := by
  intro xs
  induction xs with
  | nil =>
    intro best y hy
    simp at hy
    rw [minByLastUsed, hy]
  | cons x xs ih =>
    intro best y hy
    rw [minByLastUsed]
    have hble : (if x.2.last_used < best.2.last_used then x else best).2.last_used ≤
        best.2.last_used ∧
        (if x.2.last_used < best.2.last_used then x else best).2.last_used ≤
        x.2.last_used := by
      by_cases hc : x.2.last_used < best.2.last_used
      · rw [if_pos hc]; exact ⟨Nat.le_of_lt hc, Nat.le_refl _⟩
      · rw [if_neg hc]; exact ⟨Nat.le_refl _, Nat.le_of_not_lt hc⟩
    have hres := ih (if x.2.last_used < best.2.last_used then x else best)
      (if x.2.last_used < best.2.last_used then x else best) (List.mem_cons_self _ _)
    rcases List.mem_cons.mp hy with rfl | hy2
    · exact Nat.le_trans hres hble.1
    rcases List.mem_cons.mp hy2 with rfl | hy3
    · exact Nat.le_trans hres hble.2
    · exact ih _ y (List.mem_cons_of_mem _ hy3)

lemma minByLastUsed_first : ∀ (xs : List (Nat × ProxyInfo)) (best : Nat × ProxyInfo),
    ∃ l1 l2, best :: xs = l1 ++ minByLastUsed xs best :: l2 ∧
      ∀ y ∈ l1, (minByLastUsed xs best).2.last_used < y.2.last_used := by
  intro xs
  induction xs with
  | nil => intro best; exact ⟨[], [], rfl, by simp⟩
  | cons x xs ih =>
    intro best
    rw [minByLastUsed]
    by_cases hc : x.2.last_used < best.2.last_used
    · rw [if_pos hc]
      obtain ⟨l1, l2, hsplit, hlt⟩ := ih x
      refine ⟨best :: l1, l2, ?_, ?_⟩
      · rw [List.cons_append, ← hsplit]
      · intro y hy
        rcases List.mem_cons.mp hy with rfl | hy2
        · exact Nat.lt_of_le_of_lt (minByLastUsed_le xs x x (List.mem_cons_self _ _)) hc
        · exact hlt y hy2
    · rw [if_neg hc]
      obtain ⟨l1, l2, hsplit, hlt⟩ := ih best
      cases l1 with
      | nil =>
        simp only [List.nil_append] at hsplit
        obtain ⟨hM, hl2⟩ := List.cons.injEq .. ▸ hsplit
        refine ⟨[], x :: xs, ?_, by simp⟩
        rw [List.nil_append, ← hM]
      | cons z l1x =>
        simp only [List.cons_append] at hsplit
        obtain ⟨hz, hxs⟩ := List.cons.injEq .. ▸ hsplit
        refine ⟨best :: x :: l1x, l2, ?_, ?_⟩
        · simp only [List.cons_append]
          rw [← hxs]
        · intro y hy
          have hbestlt : (minByLastUsed xs best).2.last_used < best.2.last_used := by
            have := hlt z (List.mem_cons_self _ _)
            rwa [← hz] at this
          rcases List.mem_cons.mp hy with rfl | hy2
          · exact hbestlt
          rcases List.mem_cons.mp hy2 with rfl | hy3
          · exact Nat.lt_of_lt_of_le hbestlt (Nat.le_of_not_lt hc)
          · exact hlt y (List.mem_cons_of_mem _ hy3)

lemma mem_healthyFrom : ∀ (ps : List ProxyInfo) (k i : Nat) (p : ProxyInfo),
    (i, p) ∈ healthyFrom k ps ↔
      (k ≤ i ∧ ps[i - k]? = some p ∧ p.is_healthy = true) := by
  intro ps
  induction ps with
  | nil => intro k i p; simp [healthyFrom]
  | cons q ps ih =>
    intro k i p
    rw [healthyFrom]
    by_cases hq : q.is_healthy
    · rw [if_pos hq]
      constructor
      · intro h
        rcases List.mem_cons.mp h with heq | hmem
        · obtain ⟨rfl, rfl⟩ := Prod.mk.injEq .. ▸ heq
          exact ⟨Nat.le_refl _, by simp, hq⟩
        · obtain ⟨h1, h2, h3⟩ := (ih (k + 1) i p).mp hmem
          refine ⟨by omega, ?_, h3⟩
          rw [show i - k = (i - (k + 1)) + 1 by omega]
          simpa using h2
      · rintro ⟨hki, hget, hp⟩
        rcases Nat.eq_or_lt_of_le hki with rfl | hlt
        · rw [Nat.sub_self] at hget
          simp only [List.getElem?_cons_zero, Option.some.injEq] at hget
          rw [← hget]
          exact List.mem_cons_self _ _
        · right
          refine (ih (k + 1) i p).mpr ⟨hlt, ?_, hp⟩
          rw [show i - k = (i - (k + 1)) + 1 by omega] at hget
          simpa using hget
    · rw [if_neg hq]
      rw [ih (k + 1) i p]
      constructor
      · rintro ⟨h1, h2, h3⟩
        refine ⟨by omega, ?_, h3⟩
        rw [show i - k = (i - (k + 1)) + 1 by omega]
        simpa using h2
      · rintro ⟨hki, hget, hp⟩
        rcases Nat.eq_or_lt_of_le hki with rfl | hlt
        · exfalso
          rw [Nat.sub_self] at hget
          simp only [List.getElem?_cons_zero, Option.some.injEq] at hget
          rw [hget] at hq
          exact hq hp
        · refine ⟨hlt, ?_, hp⟩
          rw [show i - k = (i - (k + 1)) + 1 by omega] at hget
          simpa using hget

lemma healthyFrom_lb : ∀ (ps : List ProxyInfo) (k : Nat) (y : Nat × ProxyInfo),
    y ∈ healthyFrom k ps → k ≤ y.1 := by
  intro ps
  induction ps with
  | nil => intro k y h; simp [healthyFrom] at h
  | cons q ps ih =>
    intro k y h
    rw [healthyFrom] at h
    by_cases hq : q.is_healthy
    · rw [if_pos hq] at h
      rcases List.mem_cons.mp h with rfl | h2
      · exact Nat.le_refl _
      · exact Nat.le_of_succ_le (ih (k + 1) y h2)
    · rw [if_neg hq] at h
      exact Nat.le_of_succ_le (ih (k + 1) y h)

lemma healthyFrom_pairwise : ∀ (ps : List ProxyInfo) (k : Nat),
    (healthyFrom k ps).Pairwise (fun a b => a.1 < b.1) := by
  intro ps
  induction ps with
  | nil => intro k; simp [healthyFrom]
  | cons q ps ih =>
    intro k
    rw [healthyFrom]
    by_cases hq : q.is_healthy
    · rw [if_pos hq]
      exact List.Pairwise.cons (fun y hy => healthyFrom_lb ps (k + 1) y hy) (ih (k + 1))
    · rw [if_neg hq]
      exact ih (k + 1)

lemma get_next_nil (pool : ProxyRotation) (strategy : String) (r now : Nat)
    (hh : healthyFrom 0 pool.proxies = []) :
    get_next pool strategy r now = (none, pool) := by
  unfold get_next
  rw [hh]

lemma get_next_eq (pool : ProxyRotation) (strategy : String) (r now : Nat)
    (h0 : Nat × ProxyInfo) (hs : List (Nat × ProxyInfo))
    (hh : healthyFrom 0 pool.proxies = h0 :: hs) :
    get_next pool strategy r now =
      (some (selectProxy pool strategy r h0 hs).1.2.url,
       { pool with
          proxies := pool.proxies.set (selectProxy pool strategy r h0 hs).1.1
            { (selectProxy pool strategy r h0 hs).1.2 with last_used := now },
          index := (selectProxy pool strategy r h0 hs).2,
          rotations := pool.rotations + 1 }) := by
  unfold get_next
  rw [hh]

lemma selectProxy_mem (pool : ProxyRotation) (strategy : String) (r : Nat)
    (h0 : Nat × ProxyInfo) (hs : List (Nat × ProxyInfo)) :
    (selectProxy pool strategy r h0 hs).1 ∈ h0 :: hs := by
  have hgd : ∀ n : Nat, (h0 :: hs).getD n h0 ∈ h0 :: hs := by
    intro n
    rw [List.getD_eq_getElem?_getD]
    cases h : (h0 :: hs)[n]? with
    | none => exact List.mem_cons_self _ _
    | some a => simp only [Option.getD_some]; exact List.getElem?_mem h
  unfold selectProxy
  by_cases h1 : strategy = "random"
  · rw [if_pos h1]; exact hgd _
  · rw [if_neg h1]
    by_cases h2 : strategy = "least_used"
    · rw [if_pos h2]; exact minByLastUsed_mem hs h0
    · rw [if_neg h2]; exact hgd _

lemma get_next_least_used (pool : ProxyRotation) (r now : Nat)
    (h0 : Nat × ProxyInfo) (hs : List (Nat × ProxyInfo))
    (hh : healthyFrom 0 pool.proxies = h0 :: hs) :
    get_next_url pool "least_used" r now = some (minByLastUsed hs h0).2.url := by
  rw [get_next_url, get_next_eq pool "least_used" r now h0 hs hh]
  rw [show selectProxy pool "least_used" r h0 hs = (minByLastUsed hs h0, pool.index) by
    unfold selectProxy
    rw [if_neg (show ¬("least_used" = "random") by decide), if_pos rfl]]

/-- C9 (amended): under the strategy string `"least_used"` (the code's
name for the least-recently-used strategy — the spec's name
`"least_recently_used"` is not recognized and falls through to
round-robin), `get_next` returns, among currently-healthy records, the
url of the one with the smallest `last_used` timestamp, ties broken by
original list order. -/
theorem c9_least_used_selects_min (pool : ProxyRotation) (r now i : Nat)
    (p : ProxyInfo) (hi : pool.proxies[i]? = some p) (hp : p.is_healthy = true) :
    ∃ (j : Nat) (q : ProxyInfo),
      pool.proxies[j]? = some q ∧ q.is_healthy = true ∧
      get_next_url pool "least_used" r now = some q.url ∧
      (∀ (j2 : Nat) (q2 : ProxyInfo), pool.proxies[j2]? = some q2 →
        q2.is_healthy = true →
        q.last_used ≤ q2.last_used ∧ (j2 < j → q.last_used < q2.last_used)) := by
  have hmem : (i, p) ∈ healthyFrom 0 pool.proxies :=
    (mem_healthyFrom pool.proxies 0 i p).mpr ⟨Nat.zero_le i, by simpa using hi, hp⟩
  cases hh : healthyFrom 0 pool.proxies with
  | nil => rw [hh] at hmem; cases hmem
  | cons h0 hs =>
    have hurl := get_next_least_used pool r now h0 hs hh
    have hMmem : minByLastUsed hs h0 ∈ healthyFrom 0 pool.proxies := by
      rw [hh]; exact minByLastUsed_mem hs h0
    obtain ⟨-, hMget, hMhealthy⟩ :=
      (mem_healthyFrom pool.proxies 0 (minByLastUsed hs h0).1 (minByLastUsed hs h0).2).mp
        (by simpa using hMmem)
    refine ⟨(minByLastUsed hs h0).1, (minByLastUsed hs h0).2,
      by simpa using hMget, hMhealthy, hurl, ?_⟩
    intro j2 q2 hj2 hq2
    have hmem2 : (j2, q2) ∈ h0 :: hs := by
      rw [← hh]
      exact (mem_healthyFrom pool.proxies 0 j2 q2).mpr ⟨Nat.zero_le j2, by simpa using hj2, hq2⟩
    refine ⟨minByLastUsed_le hs h0 (j2, q2) hmem2, ?_⟩
    intro hj2lt
    obtain ⟨l1, l2, hsplit, hlt⟩ := minByLastUsed_first hs h0
    rw [hsplit] at hmem2
    rcases List.mem_append.mp hmem2 with hin1 | hin2
    · exact hlt (j2, q2) hin1
    rcases List.mem_cons.mp hin2 with heq | hin3
    · exfalso
      have : j2 = (minByLastUsed hs h0).1 := congrArg Prod.fst heq
      omega
    · exfalso
      have hpw : (l1 ++ minByLastUsed hs h0 :: l2).Pairwise
          (fun a b : Nat × ProxyInfo => a.1 < b.1) := by
        rw [← hsplit, ← hh]
        exact healthyFrom_pairwise pool.proxies 0
      have h2 := (List.pairwise_append.mp hpw).2.1
      have h3 := (List.pairwise_cons.mp h2).1 (j2, q2) hin3
      omega

/-- Witness for C9 (amended): a two-record pool where the second record is
least recently used; `get_next("least_used")` selects it. -/
theorem c9_least_used_selects_min_witness :
    ∃ (j : Nat) (q : ProxyInfo),
      ({ proxies := [{ url := "u1", last_used := 5 }, { url := "u2", last_used := 1 }],
         max_failures := 3 } : ProxyRotation).proxies[j]? = some q ∧ q.is_healthy = true ∧
      get_next_url
        { proxies := [{ url := "u1", last_used := 5 }, { url := "u2", last_used := 1 }],
          max_failures := 3 } "least_used" 0 9 = some q.url ∧
      (∀ (j2 : Nat) (q2 : ProxyInfo),
        ({ proxies := [{ url := "u1", last_used := 5 }, { url := "u2", last_used := 1 }],
           max_failures := 3 } : ProxyRotation).proxies[j2]? = some q2 →
        q2.is_healthy = true →
        q.last_used ≤ q2.last_used ∧ (j2 < j → q.last_used < q2.last_used)) :=
  c9_least_used_selects_min
    { proxies := [{ url := "u1", last_used := 5 }, { url := "u2", last_used := 1 }],
      max_failures := 3 } 0 9 0 { url := "u1", last_used := 5 } rfl rfl

/-! ## Cell-level lemmas about the pool operations (shared by C6 and C7) -/

lemma set_getElem_self {α : Type} : ∀ (l : List α) (n : Nat) (a : α),
    l[n]? = some a → l.set n a = l := by
  intro l
  induction l with
  | nil => intro n a h; simp at h
  | cons x xs ih =>
    intro n a h
    cases n with
    | zero =>
      simp only [List.getElem?_cons_zero, Option.some.injEq] at h
      subst h
      rfl
    | succ m =>
      simp only [List.getElem?_cons_succ] at h
      show x :: xs.set m a = x :: xs
      rw [ih m a h]

lemma failProxy_url (mf : Nat) (p : ProxyInfo) : (failProxy mf p).url = p.url := rfl

lemma healProxy_url (p : ProxyInfo) : (healProxy p).url = p.url := rfl

lemma check_single_url (mf : Nat) (ok : Bool) (lat now : Nat) (p : ProxyInfo) :
    (check_single mf ok lat now p).url = p.url := by
  unfold check_single
  by_cases h : ok <;> simp [h]

lemma rfGo_map_url (mf : Nat) (u : String) : ∀ ps : List ProxyInfo,
    ((reportFailureGo mf u ps).1).map ProxyInfo.url = ps.map ProxyInfo.url := by
  intro ps
  induction ps with
  | nil => rfl
  | cons q ps ih =>
    rw [reportFailureGo]
    by_cases hq : q.url = u
    · rw [if_pos hq]
      simp [failProxy_url]
    · rw [if_neg hq]
      show q.url :: ((reportFailureGo mf u ps).1).map ProxyInfo.url = _
      rw [ih, List.map_cons]

lemma rfGo_getElem (mf : Nat) (u : String) : ∀ (ps : List ProxyInfo) (i : Nat) (p : ProxyInfo),
    ps[i]? = some p →
    ∃ p', ((reportFailureGo mf u ps).1)[i]? = some p' ∧
      (p' = p ∨ (p.url = u ∧ p' = failProxy mf p)) := by
  intro ps
  induction ps with
  | nil => intro i p h; simp at h
  | cons q ps ih =>
    intro i p h
    rw [reportFailureGo]
    by_cases hq : q.url = u
    · rw [if_pos hq]
      cases i with
      | zero =>
        simp only [List.getElem?_cons_zero, Option.some.injEq] at h
        subst h
        exact ⟨failProxy mf q, by simp, Or.inr ⟨hq, rfl⟩⟩
      | succ m =>
        simp only [List.getElem?_cons_succ] at h
        exact ⟨p, by simpa using h, Or.inl rfl⟩
    · rw [if_neg hq]
      cases i with
      | zero =>
        simp only [List.getElem?_cons_zero, Option.some.injEq] at h
        subst h
        exact ⟨q, by simp, Or.inl rfl⟩
      | succ m =>
        simp only [List.getElem?_cons_succ] at h
        obtain ⟨p', hp', hor⟩ := ih m p h
        exact ⟨p', by simpa using hp', hor⟩

lemma rfGo_first (mf : Nat) (u : String) : ∀ (ps : List ProxyInfo) (i : Nat) (p : ProxyInfo),
    ps[i]? = some p → p.url = u →
    (∀ (j : Nat) (q : ProxyInfo), j < i → ps[j]? = some q → q.url ≠ u) →
    (reportFailureGo mf u ps).1 = ps.set i (failProxy mf p) := by
  intro ps
  induction ps with
  | nil => intro i p h _ _; simp at h
  | cons q ps ih =>
    intro i p h hurl hfirst
    rw [reportFailureGo]
    cases i with
    | zero =>
      simp only [List.getElem?_cons_zero, Option.some.injEq] at h
      subst h
      rw [if_pos hurl]
      rfl
    | succ m =>
      simp only [List.getElem?_cons_succ] at h
      have hq : q.url ≠ u := hfirst 0 q (Nat.succ_pos m) (by simp)
      rw [if_neg hq]
      have hrec := ih m p h hurl
        (fun j q2 hj hp2 => hfirst (j + 1) q2 (Nat.succ_lt_succ hj) (by simpa using hp2))
      show q :: (reportFailureGo mf u ps).1 = q :: ps.set m (failProxy mf p)
      rw [hrec]

lemma rsGo_map_url (u : String) : ∀ ps : List ProxyInfo,
    (reportSuccessGo u ps).map ProxyInfo.url = ps.map ProxyInfo.url := by
  intro ps
  induction ps with
  | nil => rfl
  | cons q ps ih =>
    rw [reportSuccessGo]
    by_cases hq : q.url = u
    · rw [if_pos hq]
      simp [healProxy_url]
    · rw [if_neg hq]
      simp only [List.map_cons]
      rw [ih]

lemma rsGo_getElem (u : String) : ∀ (ps : List ProxyInfo) (i : Nat) (p : ProxyInfo),
    ps[i]? = some p →
    ∃ p', (reportSuccessGo u ps)[i]? = some p' ∧
      (p' = p ∨ (p.url = u ∧ p' = healProxy p)) := by
  intro ps
  induction ps with
  | nil => intro i p h; simp at h
  | cons q ps ih =>
    intro i p h
    rw [reportSuccessGo]
    by_cases hq : q.url = u
    · rw [if_pos hq]
      cases i with
      | zero =>
        simp only [List.getElem?_cons_zero, Option.some.injEq] at h
        subst h
        exact ⟨healProxy q, by simp, Or.inr ⟨hq, rfl⟩⟩
      | succ m =>
        simp only [List.getElem?_cons_succ] at h
        exact ⟨p, by simpa using h, Or.inl rfl⟩
    · rw [if_neg hq]
      cases i with
      | zero =>
        simp only [List.getElem?_cons_zero, Option.some.injEq] at h
        subst h
        exact ⟨q, by simp, Or.inl rfl⟩
      | succ m =>
        simp only [List.getElem?_cons_succ] at h
        obtain ⟨p', hp', hor⟩ := ih m p h
        exact ⟨p', by simpa using hp', hor⟩

lemma rsGo_first (u : String) : ∀ (ps : List ProxyInfo) (i : Nat) (p : ProxyInfo),
    ps[i]? = some p → p.url = u →
    (∀ (j : Nat) (q : ProxyInfo), j < i → ps[j]? = some q → q.url ≠ u) →
    reportSuccessGo u ps = ps.set i (healProxy p) := by
  intro ps
  induction ps with
  | nil => intro i p h _ _; simp at h
  | cons q ps ih =>
    intro i p h hurl hfirst
    rw [reportSuccessGo]
    cases i with
    | zero =>
      simp only [List.getElem?_cons_zero, Option.some.injEq] at h
      subst h
      rw [if_pos hurl]
      rfl
    | succ m =>
      simp only [List.getElem?_cons_succ] at h
      have hq : q.url ≠ u := hfirst 0 q (Nat.succ_pos m) (by simp)
      rw [if_neg hq]
      show q :: reportSuccessGo u ps = q :: ps.set m (healProxy p)
      rw [ih m p h hurl
        (fun j q2 hj hp2 => hfirst (j + 1) q2 (Nat.succ_lt_succ hj) (by simpa using hp2))]

lemma checkAll_map_url (mf : Nat) (o : Nat → Bool) (lat now : Nat) :
    ∀ (ps : List ProxyInfo) (k : Nat),
    (checkAllFrom mf o lat now k ps).map ProxyInfo.url = ps.map ProxyInfo.url := by
  intro ps
  induction ps with
  | nil => intro k; rfl
  | cons q ps ih =>
    intro k
    rw [checkAllFrom]
    simp only [List.map_cons]
    rw [check_single_url, ih (k + 1)]

lemma checkAll_getElem (mf : Nat) (o : Nat → Bool) (lat now : Nat) :
    ∀ (ps : List ProxyInfo) (k i : Nat) (p : ProxyInfo), ps[i]? = some p →
    (checkAllFrom mf o lat now k ps)[i]? =
      some (check_single mf (o (k + i)) lat now p) := by
  intro ps
  induction ps with
  | nil => intro k i p h; simp at h
  | cons q ps ih =>
    intro k i p h
    rw [checkAllFrom]
    cases i with
    | zero =>
      simp only [List.getElem?_cons_zero, Option.some.injEq] at h
      subst h
      simp
    | succ m =>
      simp only [List.getElem?_cons_succ] at h
      simp only [List.getElem?_cons_succ]
      rw [ih (k + 1) m p h, show k + 1 + m = k + (m + 1) by omega]

lemma get_next_frame (pool : ProxyRotation) (s : String) (r now i : Nat)
    (p p' : ProxyInfo) (hp : pool.proxies[i]? = some p)
    (hp' : (get_next pool s r now).2.proxies[i]? = some p') :
    p'.url = p.url ∧ p'.is_healthy = p.is_healthy ∧ p'.fail_count = p.fail_count := by
  cases hh : healthyFrom 0 pool.proxies with
  | nil =>
    rw [get_next_nil pool s r now hh] at hp'
    replace hp' : pool.proxies[i]? = some p' := hp'
    rw [hp] at hp'
    obtain rfl : p = p' := Option.some.injEq .. ▸ hp'
    exact ⟨rfl, rfl, rfl⟩
  | cons h0 hs =>
    rw [get_next_eq pool s r now h0 hs hh] at hp'
    replace hp' : (pool.proxies.set (selectProxy pool s r h0 hs).1.1
        { (selectProxy pool s r h0 hs).1.2 with last_used := now })[i]? = some p' := hp'
    have hmem := selectProxy_mem pool s r h0 hs
    rw [← hh] at hmem
    obtain ⟨-, hget, -⟩ :=
      (mem_healthyFrom pool.proxies 0 (selectProxy pool s r h0 hs).1.1
        (selectProxy pool s r h0 hs).1.2).mp (by simpa using hmem)
    rw [Nat.sub_zero] at hget
    by_cases hi : (selectProxy pool s r h0 hs).1.1 = i
    · rw [hi] at hget
      rw [hget] at hp
      have hpe : (selectProxy pool s r h0 hs).1.2 = p := Option.some.injEq .. ▸ hp
      have hlen : i < pool.proxies.length := (List.getElem?_eq_some.mp hget).1
      rw [hi, List.getElem?_set_eq_of_lt _ hlen] at hp'
      have hpe' : { (selectProxy pool s r h0 hs).1.2 with last_used := now } = p' :=
        Option.some.injEq .. ▸ hp'
      rw [← hpe, ← hpe']
      exact ⟨rfl, rfl, rfl⟩
    · rw [List.getElem?_set_ne hi, hp] at hp'
      obtain rfl : p = p' := Option.some.injEq .. ▸ hp'
      exact ⟨rfl, rfl, rfl⟩

lemma get_next_length (pool : ProxyRotation) (s : String) (r now : Nat) :
    (get_next pool s r now).2.proxies.length = pool.proxies.length := by
  cases hh : healthyFrom 0 pool.proxies with
  | nil => rw [get_next_nil pool s r now hh]
  | cons h0 hs =>
    rw [get_next_eq pool s r now h0 hs hh]
    show (pool.proxies.set (selectProxy pool s r h0 hs).1.1
      { (selectProxy pool s r h0 hs).1.2 with last_used := now }).length = _
    rw [List.length_set]

lemma poolStep_max_failures (pool : ProxyRotation) (op : PoolOp) :
    (poolStep pool op).max_failures = pool.max_failures := by
  cases op with
  | getNext s r now =>
    show (get_next pool s r now).2.max_failures = _
    cases hh : healthyFrom 0 pool.proxies with
    | nil => rw [get_next_nil pool s r now hh]
    | cons h0 hs => rw [get_next_eq pool s r now h0 hs hh]
  | reportFailure u => rfl
  | reportSuccess u => rfl
  | healthCheck o lat now => rfl

lemma poolStep_map_url (pool : ProxyRotation) (op : PoolOp) :
    (poolStep pool op).proxies.map ProxyInfo.url =
      pool.proxies.map ProxyInfo.url := by
  cases op with
  | getNext s r now =>
    show (get_next pool s r now).2.proxies.map ProxyInfo.url = _
    cases hh : healthyFrom 0 pool.proxies with
    | nil => rw [get_next_nil pool s r now hh]
    | cons h0 hs =>
      rw [get_next_eq pool s r now h0 hs hh]
      show (pool.proxies.set (selectProxy pool s r h0 hs).1.1
        { (selectProxy pool s r h0 hs).1.2 with last_used := now }).map ProxyInfo.url = _
      rw [List.map_set]
      apply set_getElem_self
      rw [List.getElem?_map]
      have hmem := selectProxy_mem pool s r h0 hs
      rw [← hh] at hmem
      obtain ⟨-, hget, -⟩ :=
        (mem_healthyFrom pool.proxies 0 (selectProxy pool s r h0 hs).1.1
          (selectProxy pool s r h0 hs).1.2).mp (by simpa using hmem)
      rw [Nat.sub_zero] at hget
      rw [hget]
      rfl
  | reportFailure u => exact rfGo_map_url pool.max_failures u pool.proxies
  | reportSuccess u => exact rsGo_map_url u pool.proxies
  | healthCheck o lat now => exact checkAll_map_url pool.max_failures o lat now pool.proxies 0

lemma poolStep_length (pool : ProxyRotation) (op : PoolOp) :
    (poolStep pool op).proxies.length = pool.proxies.length := by
  have h := congrArg List.length (poolStep_map_url pool op)
  simpa using h

/-- Per-record characterization of one public-API step: the record at
position `i` is either left with its health and failure count intact
(`get_next` only touches `last_used`, and a report for another url does
not touch it), or it undergoes exactly the source transition of
`report_failure`, `report_success`, or its own probe of the health
sweep. -/
lemma poolStep_getElem (pool : ProxyRotation) (op : PoolOp) (i : Nat) (p : ProxyInfo)
    (hp : pool.proxies[i]? = some p) :
    ∃ p', (poolStep pool op).proxies[i]? = some p' ∧
      ((p'.is_healthy = p.is_healthy ∧ p'.fail_count = p.fail_count) ∨
       (∃ u2, op = PoolOp.reportFailure u2 ∧ p.url = u2 ∧
         p' = failProxy pool.max_failures p) ∨
       (op = PoolOp.reportSuccess p.url ∧ p' = healProxy p) ∨
       (∃ o lat now, op = PoolOp.healthCheck o lat now ∧
         p' = check_single pool.max_failures (o i) lat now p)) := by
  cases op with
  | getNext s r now =>
    obtain ⟨p', hp'⟩ : ∃ p', (poolStep pool (PoolOp.getNext s r now)).proxies[i]? = some p' := by
      have hlen : i < (poolStep pool (PoolOp.getNext s r now)).proxies.length := by
        rw [poolStep_length]
        exact (List.getElem?_eq_some.mp hp).1
      exact ⟨_, List.getElem?_eq_getElem hlen⟩
    have hframe := get_next_frame pool s r now i p p' hp hp'
    exact ⟨p', hp', Or.inl ⟨hframe.2.1, hframe.2.2⟩⟩
  | reportFailure u =>
    obtain ⟨p', hp', hor⟩ := rfGo_getElem pool.max_failures u pool.proxies i p hp
    refine ⟨p', hp', ?_⟩
    rcases hor with rfl | ⟨hu, rfl⟩
    · exact Or.inl ⟨rfl, rfl⟩
    · exact Or.inr (Or.inl ⟨u, rfl, hu, rfl⟩)
  | reportSuccess u =>
    obtain ⟨p', hp', hor⟩ := rsGo_getElem u pool.proxies i p hp
    refine ⟨p', hp', ?_⟩
    rcases hor with rfl | ⟨hu, rfl⟩
    · exact Or.inl ⟨rfl, rfl⟩
    · exact Or.inr (Or.inr (Or.inl ⟨by rw [hu], rfl⟩))
  | healthCheck o lat now =>
    have hc := checkAll_getElem pool.max_failures o lat now pool.proxies 0 i p hp
    rw [Nat.zero_add] at hc
    exact ⟨_, hc, Or.inr (Or.inr (Or.inr ⟨o, lat, now, rfl, rfl⟩))⟩

/-- The record-level unhealthiness invariant: a record is unhealthy
exactly when its failure count has reached the threshold. -/
def PoolInv (pool : ProxyRotation) : Prop :=
  ∀ p ∈ pool.proxies, (p.is_healthy = false ↔ pool.max_failures ≤ p.fail_count)

lemma threshold_iff (mf fc : Nat) (b : Bool) (h : b = false ↔ mf ≤ fc) :
    ((if mf ≤ fc + 1 then false else b) = false ↔ mf ≤ fc + 1) := by
  by_cases hc : mf ≤ fc + 1
  · rw [if_pos hc]
    simp [hc]
  · rw [if_neg hc]
    constructor
    · intro hb
      exact absurd (Nat.le_succ_of_le (h.mp hb)) hc
    · intro hle
      exact absurd hle hc

lemma poolStep_inv (pool : ProxyRotation) (op : PoolOp)
    (hmf : 0 < pool.max_failures) (h : PoolInv pool) : PoolInv (poolStep pool op) := by
  intro p' hp'
  rw [poolStep_max_failures]
  obtain ⟨i, hi⟩ := List.mem_iff_getElem?.mp hp'
  obtain ⟨p0, hp0⟩ : ∃ p0, pool.proxies[i]? = some p0 := by
    have hlen : i < pool.proxies.length := by
      rw [← poolStep_length pool op]
      exact (List.getElem?_eq_some.mp hi).1
    exact ⟨_, List.getElem?_eq_getElem hlen⟩
  obtain ⟨p1, hp1, hcase⟩ := poolStep_getElem pool op i p0 hp0
  rw [hi] at hp1
  obtain rfl : p' = p1 := Option.some.injEq .. ▸ hp1
  have h0 := h p0 (List.getElem?_mem hp0)
  rcases hcase with ⟨hh, hf⟩ | ⟨u2, -, -, rfl⟩ | ⟨-, rfl⟩ | ⟨o, lat, now, -, rfl⟩
  · rw [hh, hf]
    exact h0
  · exact threshold_iff pool.max_failures p0.fail_count p0.is_healthy h0
  · show (true = false ↔ pool.max_failures ≤ 0)
    simp
    omega
  · unfold check_single
    by_cases hok : o i
    · rw [if_pos hok]
      show (true = false ↔ pool.max_failures ≤ 0)
      simp
      omega
    · rw [if_neg hok]
      exact threshold_iff pool.max_failures p0.fail_count p0.is_healthy h0

lemma poolRun_inv (pool : ProxyRotation) (ops : List PoolOp)
    (hmf : 0 < pool.max_failures) (h : PoolInv pool) :
    PoolInv (poolRun pool ops) ∧ (poolRun pool ops).max_failures = pool.max_failures := by
  induction ops generalizing pool with
  | nil => exact ⟨h, rfl⟩
  | cons op ops ih =>
    have h2 := poolStep_max_failures pool op
    obtain ⟨ha, hb⟩ := ih (poolStep pool op) (by rw [h2]; exact hmf)
      (poolStep_inv pool op hmf h)
    refine ⟨ha, ?_⟩
    show (poolRun (poolStep pool op) ops).max_failures = _
    rw [hb, h2]

lemma initPool_inv (urls : List String) (mf : Nat) (hmf : 0 < mf) :
    PoolInv (initPool urls mf) := by
  intro p hp
  unfold initPool at hp
  simp only [List.mem_map] at hp
  obtain ⟨u, -, rfl⟩ := hp
  show (true = false ↔ mf ≤ 0)
  constructor
  · intro hc
    exact absurd hc (by simp)
  · intro hc
    exact absurd hmf (by omega)

/-! ## Claim C7: unhealthiness threshold invariant -/

/-- C7 counterexample: the invariant "a record is unhealthy exactly when
`fail_count` has reached `max_failures`" fails for a pool constructed
with `max_failures = 0`: a fresh record has `fail_count = 0`, which has
already reached the threshold, yet it is healthy. -/
theorem c7_zero_threshold_counterexample :
    (initPool ["u"] 0).max_failures = 0 ∧
    (initPool ["u"] 0).proxies.map ProxyInfo.fail_count = [0] ∧
    (initPool ["u"] 0).proxies.map ProxyInfo.is_healthy = [true] :=
  ⟨rfl, rfl, rfl⟩

/-- C7 (amended; requires `max_failures ≥ 1`): (a) in every pool state
reachable from construction through the public API, a record is
unhealthy exactly when its `fail_count` has reached `max_failures`;
(b) `report_failure` increments the first matching record's `fail_count`
and leaves it marked unhealthy exactly when the incremented count has
reached the threshold; (c) in any pool, a step that decreases a record's
`fail_count` or turns it from unhealthy to healthy can only be
`report_success` on its url or a successful probe of its own position,
and any such step resets `fail_count` to 0 (so `fail_count` is never
otherwise decremented and a record becomes healthy again only through
those two events). -/
theorem c7_unhealthy_iff_threshold (urls : List String) (mf : Nat) (hmf : 0 < mf) :
    (∀ (ops : List PoolOp) (p : ProxyInfo),
       p ∈ (poolRun (initPool urls mf) ops).proxies →
       (p.is_healthy = false ↔ mf ≤ p.fail_count)) ∧
    (∀ (ops : List PoolOp) (u : String) (i : Nat) (p : ProxyInfo),
       (poolRun (initPool urls mf) ops).proxies[i]? = some p → p.url = u →
       (∀ (j : Nat) (q : ProxyInfo), j < i →
          (poolRun (initPool urls mf) ops).proxies[j]? = some q → q.url ≠ u) →
       (report_failure (poolRun (initPool urls mf) ops) u).proxies =
         (poolRun (initPool urls mf) ops).proxies.set i (failProxy mf p) ∧
       (failProxy mf p).fail_count = p.fail_count + 1 ∧
       ((failProxy mf p).is_healthy = false ↔ mf ≤ p.fail_count + 1)) ∧
    (∀ (pool : ProxyRotation) (op : PoolOp) (i : Nat) (p p' : ProxyInfo),
       pool.proxies[i]? = some p → (poolStep pool op).proxies[i]? = some p' →
       (p'.fail_count < p.fail_count ∨ (p.is_healthy = false ∧ p'.is_healthy = true)) →
       (p'.fail_count = 0 ∧ p'.is_healthy = true ∧
        (op = PoolOp.reportSuccess p.url ∨
         ∃ o lat now, op = PoolOp.healthCheck o lat now ∧ o i = true))) := by
  have hrun : ∀ ops : List PoolOp,
      PoolInv (poolRun (initPool urls mf) ops) ∧
      (poolRun (initPool urls mf) ops).max_failures = mf :=
    fun ops => poolRun_inv (initPool urls mf) ops hmf (initPool_inv urls mf hmf)
  refine ⟨?_, ?_, ?_⟩
  · intro ops p hp
    have h := (hrun ops).1 p hp
    rwa [(hrun ops).2] at h
  · intro ops u i p hi hu hfirst
    have hiff := (hrun ops).1 p (List.getElem?_mem hi)
    rw [(hrun ops).2] at hiff
    refine ⟨?_, rfl, threshold_iff mf p.fail_count p.is_healthy hiff⟩
    show (reportFailureGo (poolRun (initPool urls mf) ops).max_failures u
      (poolRun (initPool urls mf) ops).proxies).1 = _
    rw [(hrun ops).2]
    exact rfGo_first mf u (poolRun (initPool urls mf) ops).proxies i p hi hu hfirst
  · intro pool op i p p' hp hp' hchange
    obtain ⟨p1, hp1, hcase⟩ := poolStep_getElem pool op i p hp
    rw [hp'] at hp1
    obtain rfl : p' = p1 := Option.some.injEq .. ▸ hp1
    rcases hcase with ⟨hh, hf⟩ | ⟨u2, -, hu2, rfl⟩ | ⟨hop, rfl⟩ | ⟨o, lat, now, hop, rfl⟩
    · exfalso
      rcases hchange with hlt | ⟨hf0, ht⟩
      · rw [hf] at hlt
        exact Nat.lt_irrefl _ hlt
      · rw [hh, hf0] at ht
        exact absurd ht (by simp)
    · exfalso
      rcases hchange with hlt | ⟨hf0, ht⟩
      · have : (failProxy pool.max_failures p).fail_count = p.fail_count + 1 := rfl
        omega
      · have ht2 : (if pool.max_failures ≤ p.fail_count + 1 then false
            else p.is_healthy) = true := ht
        by_cases hc : pool.max_failures ≤ p.fail_count + 1
        · rw [if_pos hc] at ht2
          exact absurd ht2 (by simp)
        · rw [if_neg hc] at ht2
          rw [hf0] at ht2
          exact absurd ht2 (by simp)
    · exact ⟨rfl, rfl, Or.inl hop⟩
    · by_cases hok : o i
      · refine ⟨?_, ?_, Or.inr ⟨o, lat, now, hop, hok⟩⟩
        · show (check_single pool.max_failures (o i) lat now p).fail_count = 0
          unfold check_single
          rw [if_pos hok]
        · show (check_single pool.max_failures (o i) lat now p).is_healthy = true
          unfold check_single
          rw [if_pos hok]
      · exfalso
        have hcseq : check_single pool.max_failures (o i) lat now p =
            { p with
              fail_count := p.fail_count + 1,
              is_healthy :=
                (if pool.max_failures ≤ p.fail_count + 1 then false else p.is_healthy),
              last_checked := now } := by
          unfold check_single
          rw [if_neg hok]
        rcases hchange with hlt | ⟨hf0, ht⟩
        · rw [hcseq] at hlt
          have hfcc : ({ p with
              fail_count := p.fail_count + 1,
              is_healthy :=
                (if pool.max_failures ≤ p.fail_count + 1 then false else p.is_healthy),
              last_checked := now } : ProxyInfo).fail_count = p.fail_count + 1 := rfl
          omega
        · rw [hcseq] at ht
          have ht2 : (if pool.max_failures ≤ p.fail_count + 1 then false
              else p.is_healthy) = true := ht
          by_cases hc : pool.max_failures ≤ p.fail_count + 1
          · rw [if_pos hc] at ht2
            exact absurd ht2 (by simp)
          · rw [if_neg hc] at ht2
            rw [hf0] at ht2
            exact absurd ht2 (by simp)

/-- Witness for C7: on `["u"]` with `max_failures = 1`, the record
produced by `report_failure` from the fresh state is unhealthy exactly
because the incremented count reaches the threshold. -/
theorem c7_unhealthy_iff_threshold_witness :
    (failProxy 1 { url := "u" }).is_healthy = false ↔
      1 ≤ ({ url := "u" } : ProxyInfo).fail_count + 1 :=
  ((c7_unhealthy_iff_threshold ["u"] 1 (by omega)).2.1 [] "u" 0 { url := "u" }
    rfl rfl (fun j q hj _ => absurd hj (by omega))).2.2

/-! ## Claim C6: failed-out proxies are never handed out -/

lemma healthyFrom_nil_iff : ∀ (ps : List ProxyInfo) (k : Nat),
    healthyFrom k ps = [] ↔ ∀ p ∈ ps, p.is_healthy = false := by
  intro ps
  induction ps with
  | nil => intro k; simp [healthyFrom]
  | cons q ps ih =>
    intro k
    rw [healthyFrom]
    by_cases hq : q.is_healthy
    · rw [if_pos hq]
      constructor
      · intro h
        exact absurd h (by simp)
      · intro h
        exact absurd (h q (List.mem_cons_self _ _)) (by simp [hq])
    · rw [if_neg hq]
      rw [ih (k + 1)]
      constructor
      · intro h p hp
        rcases List.mem_cons.mp hp with rfl | hp2
        · exact Bool.eq_false_iff.mpr hq
        · exact h p hp2
      · intro h p hp
        exact h p (List.mem_cons_of_mem _ hp)

/-- Whatever the strategy, `get_next` only hands out the url of a record
that is healthy at the time of the call. -/
lemma get_next_some_healthy (pool : ProxyRotation) (s : String) (r now : Nat)
    (u2 : String) (h : get_next_url pool s r now = some u2) :
    ∃ (i : Nat) (p : ProxyInfo), pool.proxies[i]? = some p ∧ p.url = u2 ∧
      p.is_healthy = true := by
  cases hh : healthyFrom 0 pool.proxies with
  | nil =>
    rw [get_next_url, get_next_nil pool s r now hh] at h
    exact absurd h (by simp)
  | cons h0 hs =>
    rw [get_next_url, get_next_eq pool s r now h0 hs hh] at h
    replace h : some (selectProxy pool s r h0 hs).1.2.url = some u2 := h
    have hu2 : (selectProxy pool s r h0 hs).1.2.url = u2 := Option.some.injEq .. ▸ h
    have hmem := selectProxy_mem pool s r h0 hs
    rw [← hh] at hmem
    obtain ⟨-, hget, hhe⟩ :=
      (mem_healthyFrom pool.proxies 0 (selectProxy pool s r h0 hs).1.1
        (selectProxy pool s r h0 hs).1.2).mp (by simpa using hmem)
    rw [Nat.sub_zero] at hget
    exact ⟨(selectProxy pool s r h0 hs).1.1, (selectProxy pool s r h0 hs).1.2,
      hget, hu2, hhe⟩

/-- An operation that neither reports success for `u` nor probes `u`'s
record successfully (record positions are taken in `pool`; they are
stable along a run since no operation changes any record's url or the
length of the list). -/
def sparesUrl (pool : ProxyRotation) (u : String) : PoolOp → Prop
  | PoolOp.reportSuccess u2 => u2 ≠ u
  | PoolOp.healthCheck o _ _ =>
      ∀ (i : Nat) (p : ProxyInfo), pool.proxies[i]? = some p → p.url = u → o i = false
  | _ => True

/-- Every record holding `u` is currently unhealthy. -/
def UDown (u : String) (pool : ProxyRotation) : Prop :=
  ∀ (i : Nat) (p : ProxyInfo), pool.proxies[i]? = some p → p.url = u →
    p.is_healthy = false

lemma map_url_getElem (P pool : ProxyRotation)
    (hurl : P.proxies.map ProxyInfo.url = pool.proxies.map ProxyInfo.url)
    (i : Nat) (p : ProxyInfo) (hp : P.proxies[i]? = some p) :
    ∃ q, pool.proxies[i]? = some q ∧ q.url = p.url := by
  have h1 : (P.proxies.map ProxyInfo.url)[i]? = some p.url := by
    rw [List.getElem?_map, hp]
    rfl
  rw [hurl, List.getElem?_map] at h1
  cases hq : pool.proxies[i]? with
  | none => rw [hq] at h1; exact absurd h1 (by simp)
  | some q =>
    rw [hq] at h1
    simp only [Option.map_some', Option.some.injEq] at h1
    exact ⟨q, rfl, h1⟩

lemma UDown_step (pool P : ProxyRotation) (u : String) (op : PoolOp)
    (hurl : P.proxies.map ProxyInfo.url = pool.proxies.map ProxyInfo.url)
    (hspare : sparesUrl pool u op) (hd : UDown u P) : UDown u (poolStep P op) := by
  intro i p' hp' hu'
  obtain ⟨p0, hp0⟩ : ∃ p0, P.proxies[i]? = some p0 := by
    have hlen : i < P.proxies.length := by
      rw [← poolStep_length P op]
      exact (List.getElem?_eq_some.mp hp').1
    exact ⟨_, List.getElem?_eq_getElem hlen⟩
  have hpu : p'.url = p0.url := by
    have h1 : ((poolStep P op).proxies.map ProxyInfo.url)[i]? = some p'.url := by
      rw [List.getElem?_map, hp']
      rfl
    rw [poolStep_map_url, List.getElem?_map, hp0] at h1
    simpa using h1.symm
  have hu0 : p0.url = u := by rw [← hpu, hu']
  have hdown := hd i p0 hp0 hu0
  obtain ⟨p1, hp1, hcase⟩ := poolStep_getElem P op i p0 hp0
  rw [hp'] at hp1
  obtain rfl : p' = p1 := Option.some.injEq .. ▸ hp1
  rcases hcase with ⟨hh, -⟩ | ⟨u2, -, -, rfl⟩ | ⟨hop, rfl⟩ | ⟨o, lat, now, hop, rfl⟩
  · rw [hh, hdown]
  · show (if P.max_failures ≤ p0.fail_count + 1 then false else p0.is_healthy) = false
    by_cases hc : P.max_failures ≤ p0.fail_count + 1
    · rw [if_pos hc]
    · rw [if_neg hc, hdown]
  · exfalso
    rw [hop] at hspare
    exact (hspare : p0.url ≠ u) hu0
  · have hfalse : o i = false := by
      rw [hop] at hspare
      obtain ⟨q, hq, hqu⟩ := map_url_getElem P pool hurl i p0 hp0
      exact hspare i q hq (by rw [hqu, hu0])
    show (check_single P.max_failures (o i) lat now p0).is_healthy = false
    unfold check_single
    rw [hfalse]
    show (if P.max_failures ≤ p0.fail_count + 1 then false else p0.is_healthy) = false
    by_cases hc : P.max_failures ≤ p0.fail_count + 1
    · rw [if_pos hc]
    · rw [if_neg hc, hdown]

lemma UDown_run (pool P : ProxyRotation) (u : String) (ops : List PoolOp)
    (hurl : P.proxies.map ProxyInfo.url = pool.proxies.map ProxyInfo.url)
    (hspares : ∀ op ∈ ops, sparesUrl pool u op) (hd : UDown u P) :
    UDown u (poolRun P ops) := by
  induction ops generalizing P with
  | nil => exact hd
  | cons op ops ih =>
    show UDown u (poolRun (poolStep P op) ops)
    exact ih (poolStep P op) (by rw [poolStep_map_url, hurl])
      (fun op2 h2 => hspares op2 (List.mem_cons_of_mem _ h2))
      (UDown_step pool P u op hurl (hspares op (List.mem_cons_self _ _)) hd)

/-- The record of url `u` after `k` iterated `report_failure(u)` calls:
the count has grown by `k`, and the record is unhealthy as soon as at
least one call has pushed the count to the threshold. -/
def iterFail (mf k : Nat) (p : ProxyInfo) : ProxyInfo :=
  { p with
    fail_count := p.fail_count + k,
    is_healthy := (if 1 ≤ k ∧ mf ≤ p.fail_count + k then false else p.is_healthy) }

lemma iterFail_zero (mf : Nat) (p : ProxyInfo) : iterFail mf 0 p = p := rfl

lemma failProxy_iterFail (mf k : Nat) (p : ProxyInfo) :
    failProxy mf (iterFail mf k p) = iterFail mf (k + 1) p := by
  cases p with
  | mk purl ph plat pfc plu plc =>
    simp only [failProxy, iterFail, ProxyInfo.mk.injEq, and_true, true_and]
    refine ⟨?_, by omega⟩
    split_ifs <;> first | rfl | (exfalso; omega)

lemma iterate_rf_map_url (pool : ProxyRotation) (u : String) : ∀ k : Nat,
    ((fun pl => report_failure pl u)^[k] pool).proxies.map ProxyInfo.url =
      pool.proxies.map ProxyInfo.url := by
  intro k
  induction k with
  | zero => rw [Function.iterate_zero_apply]
  | succ k ih =>
    rw [Function.iterate_succ_apply']
    rw [show report_failure ((fun pl => report_failure pl u)^[k] pool) u =
      poolStep ((fun pl => report_failure pl u)^[k] pool) (PoolOp.reportFailure u)
      from rfl]
    rw [poolStep_map_url]
    exact ih

/-- With pairwise-distinct urls, any record holding `u` is the first
match for `u`. -/
lemma nodup_first_match (pool : ProxyRotation) (u : String)
    (hnodup : (pool.proxies.map ProxyInfo.url).Nodup)
    (i : Nat) (p : ProxyInfo) (hi : pool.proxies[i]? = some p) (hu : p.url = u) :
    ∀ (j : Nat) (q : ProxyInfo), j < i → pool.proxies[j]? = some q → q.url ≠ u := by
  intro j q hj hq hqu
  have h1 : (pool.proxies.map ProxyInfo.url)[j]? = some u := by
    rw [List.getElem?_map, hq]
    rw [Option.map_some', hqu]
  have h2 : (pool.proxies.map ProxyInfo.url)[i]? = some u := by
    rw [List.getElem?_map, hi]
    rw [Option.map_some', hu]
  have hji : j = i :=
    List.getElem?_inj (List.getElem?_eq_some.mp h1).1 hnodup (by rw [h1, h2])
  omega

lemma iter_rf (pool : ProxyRotation) (u : String) (i : Nat) (p : ProxyInfo)
    (hi : pool.proxies[i]? = some p) (hu : p.url = u)
    (hfirst : ∀ (j : Nat) (q : ProxyInfo), j < i → pool.proxies[j]? = some q →
      q.url ≠ u) :
    ∀ k : Nat, ((fun pl => report_failure pl u)^[k] pool).proxies =
        pool.proxies.set i (iterFail pool.max_failures k p) ∧
      ((fun pl => report_failure pl u)^[k] pool).max_failures = pool.max_failures := by
  intro k
  induction k with
  | zero =>
    rw [Function.iterate_zero_apply]
    exact ⟨by rw [iterFail_zero, set_getElem_self pool.proxies i p hi], rfl⟩
  | succ k ih =>
    rw [Function.iterate_succ_apply']
    obtain ⟨hps, hmfs⟩ := ih
    have hlen : i < pool.proxies.length := (List.getElem?_eq_some.mp hi).1
    have hgeti : ((fun pl => report_failure pl u)^[k] pool).proxies[i]? =
        some (iterFail pool.max_failures k p) := by
      rw [hps]
      exact List.getElem?_set_eq_of_lt _ hlen
    have hfirst2 : ∀ (j : Nat) (q : ProxyInfo), j < i →
        ((fun pl => report_failure pl u)^[k] pool).proxies[j]? = some q →
        q.url ≠ u := by
      intro j q hj hq
      rw [hps, List.getElem?_set_ne (by omega)] at hq
      exact hfirst j q hj hq
    have hiu : (iterFail pool.max_failures k p).url = u := hu
    constructor
    · show (reportFailureGo ((fun pl => report_failure pl u)^[k] pool).max_failures u
        ((fun pl => report_failure pl u)^[k] pool).proxies).1 = _
      rw [hmfs]
      rw [rfGo_first pool.max_failures u _ i (iterFail pool.max_failures k p)
        hgeti hiu hfirst2]
      rw [hps, List.set_set, failProxy_iterFail]
    · show ((fun pl => report_failure pl u)^[k] pool).max_failures = _
      exact hmfs

lemma after_mf_UDown (pool : ProxyRotation) (u : String)
    (hnodup : (pool.proxies.map ProxyInfo.url).Nodup)
    (hmf : 0 < pool.max_failures) :
    UDown u ((fun pl => report_failure pl u)^[pool.max_failures] pool) := by
  intro i p' hp' hu'
  have hmap := iterate_rf_map_url pool u pool.max_failures
  obtain ⟨q, hq, hqu⟩ := map_url_getElem _ pool hmap i p' hp'
  have hqu2 : q.url = u := by rw [hqu, hu']
  obtain ⟨hps, -⟩ := iter_rf pool u i q hq hqu2
    (nodup_first_match pool u hnodup i q hq hqu2) pool.max_failures
  rw [hps] at hp'
  have hlen : i < pool.proxies.length := (List.getElem?_eq_some.mp hq).1
  rw [List.getElem?_set_eq_of_lt _ hlen] at hp'
  have hpe : iterFail pool.max_failures pool.max_failures q = p' :=
    Option.some.injEq .. ▸ hp'
  rw [← hpe]
  show (if 1 ≤ pool.max_failures ∧
      pool.max_failures ≤ q.fail_count + pool.max_failures then false
    else q.is_healthy) = false
  rw [if_pos (by omega)]

/-! ## Claim C6 theorems -/

/-- C6 counterexample: with `max_failures = 0`, the claim's premise
"after `max_failures` consecutive `report_failure(u)` calls" is satisfied
by the freshly constructed pool itself (zero calls), yet `get_next`
returns `u` without any intervening `report_success` or successful
probe. -/
theorem c6_zero_threshold_counterexample :
    get_next_url ((fun pl => report_failure pl "u")^[(initPool ["u"] 0).max_failures]
      (initPool ["u"] 0)) "round_robin" 0 7 = some "u" :=
  rfl

/-- C6 (amended; needs pairwise-distinct urls — the data model's
"url: pool key, unique" invariant — and `max_failures ≥ 1`): (a) after
`max_failures` consecutive `report_failure(u)` calls, `get_next` under
any strategy never returns `u` across any further sequence of public-API
operations containing no `report_success(u)` and no successful probe of
`u`'s record; (b) `report_success(u)` immediately makes `u`'s record
healthy again with `fail_count` reset to 0; (c) `get_next` only ever
returns the url of a currently-healthy record, and (d) with zero healthy
records it returns `none` rather than erroring. -/
theorem c6_failed_proxy_never_returned (pool : ProxyRotation) (u : String)
    (hnodup : (pool.proxies.map ProxyInfo.url).Nodup)
    (hmf : 0 < pool.max_failures) :
    (∀ (ops : List PoolOp) (s : String) (r now : Nat),
       (∀ op ∈ ops, sparesUrl pool u op) →
       get_next_url
         (poolRun ((fun pl => report_failure pl u)^[pool.max_failures] pool) ops)
         s r now ≠ some u) ∧
    (∀ (i : Nat) (p : ProxyInfo), pool.proxies[i]? = some p → p.url = u →
       (report_success pool u).proxies[i]? = some (healProxy p) ∧
       (healProxy p).is_healthy = true ∧ (healProxy p).fail_count = 0) ∧
    (∀ (s : String) (r now : Nat) (u2 : String),
       get_next_url pool s r now = some u2 →
       ∃ (i : Nat) (p : ProxyInfo), pool.proxies[i]? = some p ∧ p.url = u2 ∧
         p.is_healthy = true) ∧
    ((∀ p ∈ pool.proxies, p.is_healthy = false) →
       ∀ (s : String) (r now : Nat), get_next_url pool s r now = none) := by
  refine ⟨?_, ?_, ?_, ?_⟩
  · intro ops s r now hspares hret
    have hdown : UDown u
        (poolRun ((fun pl => report_failure pl u)^[pool.max_failures] pool) ops) :=
      UDown_run pool _ u ops (iterate_rf_map_url pool u pool.max_failures) hspares
        (after_mf_UDown pool u hnodup hmf)
    obtain ⟨i, p, hp, hpu, hph⟩ := get_next_some_healthy _ s r now u hret
    have := hdown i p hp hpu
    rw [hph] at this
    exact absurd this (by simp)
  · intro i p hi hu
    have hlen : i < pool.proxies.length := (List.getElem?_eq_some.mp hi).1
    have hset : (report_success pool u).proxies = pool.proxies.set i (healProxy p) :=
      rsGo_first u pool.proxies i p hi hu (nodup_first_match pool u hnodup i p hi hu)
    refine ⟨?_, rfl, rfl⟩
    rw [hset]
    exact List.getElem?_set_eq_of_lt _ hlen
  · intro s r now u2 h
    exact get_next_some_healthy pool s r now u2 h
  · intro hall s r now
    rw [get_next_url, get_next_nil pool s r now ((healthyFrom_nil_iff pool.proxies 0).mpr hall)]

/-- Witness for C6: pool `["u", "v"]` with `max_failures = 1`; after one
`report_failure("u")` and no further operations, round-robin `get_next`
does not return `"u"`. -/
theorem c6_failed_proxy_never_returned_witness :
    get_next_url
      (poolRun ((fun pl => report_failure pl "u")^[(initPool ["u", "v"] 1).max_failures]
        (initPool ["u", "v"] 1)) []) "round_robin" 0 7 ≠ some "u" :=
  (c6_failed_proxy_never_returned (initPool ["u", "v"] 1) "u" (by decide)
    (by decide)).1 [] "round_robin" 0 7 (fun op h => absurd h (List.not_mem_nil op))

/-! ## Claim C10: merging produced values into the context -/

/-- C10 counterexample: the merge guard (task_runner.py line 97) tests
Python truthiness of `result.result_data`, not non-nullness.  A task
completing with the non-null value `0` is recorded `completed` with
result data `0`, yet no entry is written to the shared context. -/
theorem c10_nonnull_falsy_counterexample :
    (execute [{ name := "a" }] (fun _ _ _ => Outcome.ok (Value.vint 0)) []).1.context = [] ∧
    (execute [{ name := "a" }] (fun _ _ _ => Outcome.ok (Value.vint 0)) []).1.results =
      [("a", { task_name := "a", status := .completed, result_data := Value.vint 0 })] ∧
    Value.vint 0 ≠ Value.vnone :=
  ⟨rfl, rfl, by decide⟩

/-- C10 (amended): for a task reached with its dependencies met whose
action succeeds producing value `v`: if `v` is truthy the run continues
with the context mapping the task's name to `v` (readable by all later
tasks); if `v` is falsy — including the null value — the context passes
on unchanged.  A task recorded skipped leaves the context untouched, and
a task whose every attempt fails aborts the run with the context exactly
as it stood, so failed and skipped tasks never write to the context. -/
theorem c10_context_write_iff_truthy (tasks : TaskGraph)
    (acts : String → List (String × Value) → Nat → Outcome)
    (name : String) (rest : List String) (st : RunState) (t : AutomationTask)
    (res : TaskResult)
    (ht : findTask tasks name = some t)
    (hdep : dependencies_met st.results t = true)
    (hok : (execute_task t (acts name st.context)).1 = Except.ok res) :
    (res.result_data.truthy = true →
      executeLoop tasks acts (name :: rest) st =
        executeLoop tasks acts rest
          { results := dictInsert st.results name res,
            context := dictInsert st.context name res.result_data,
            invoked := st.invoked ++ [(name, (execute_task t (acts name st.context)).2)] } ∧
      dictGet (dictInsert st.context name res.result_data) name = some res.result_data) ∧
    (res.result_data.truthy = false →
      executeLoop tasks acts (name :: rest) st =
        executeLoop tasks acts rest
          { results := dictInsert st.results name res,
            context := st.context,
            invoked := st.invoked ++ [(name, (execute_task t (acts name st.context)).2)] }) ∧
    (∀ st2 : RunState, dependencies_met st2.results t = false →
      executeLoop tasks acts (name :: rest) st2 =
        executeLoop tasks acts rest
          { st2 with results := dictInsert st2.results name (skippedResult name) }) ∧
    (∀ (st3 : RunState) (msg : String), dependencies_met st3.results t = true →
      (execute_task t (acts name st3.context)).1 = Except.error msg →
      (executeLoop tasks acts (name :: rest) st3).1.context = st3.context) := by
  have hstatus := execute_task_ok t (acts name st.context) res hok
  have hstep := executeLoop_ok tasks acts name rest st t res ht hdep hok
  refine ⟨?_, ?_, ?_, ?_⟩
  · intro htr
    refine ⟨?_, dictGet_dictInsert_self _ _ _⟩
    rwa [hstatus.2.1, htr] at hstep
    -- after rewriting, the guard is `completed == completed && true`, definitionally true
  · intro htr
    rwa [hstatus.2.1, htr, Bool.and_false, if_neg (by simp)] at hstep
  · intro st2 hd2
    exact executeLoop_skip tasks acts name rest st2 t ht hd2
  · intro st3 msg hd3 herr
    rw [executeLoop_err tasks acts name rest st3 t msg ht hd3 herr]

/-- Witness for C10: a single task producing the truthy value `7`; after
its step the context maps `"a"` to `7`. -/
theorem c10_context_write_iff_truthy_witness :
    executeLoop [{ name := "a" }] (fun _ _ _ => Outcome.ok (Value.vint 7)) ["a"] ⟨[], [], []⟩ =
      executeLoop [{ name := "a" }] (fun _ _ _ => Outcome.ok (Value.vint 7)) []
        { results := dictInsert []
            "a" { task_name := "a", status := .completed, result_data := Value.vint 7 },
          context := dictInsert [] "a" (Value.vint 7),
          invoked := [("a", 1)] } ∧
    dictGet (dictInsert ([] : List (String × Value)) "a" (Value.vint 7)) "a" =
      some (Value.vint 7) :=
  (c10_context_write_iff_truthy [{ name := "a" }]
    (fun _ _ _ => Outcome.ok (Value.vint 7)) "a" [] ⟨[], [], []⟩ { name := "a" }
    { task_name := "a", status := .completed, result_data := Value.vint 7 }
    rfl rfl rfl).1 rfl

/-! ## Claim C5: retry_until -/

lemma backoff_waits (cur backoff : ℚ) (s : Nat) :
    (List.range (s + 1)).map (fun j => cur * backoff ^ j) =
      cur :: (List.range s).map fun j => cur * backoff * backoff ^ j := by
  rw [List.range_succ_eq_map, List.map_cons, List.map_map]
  refine congrArg₂ List.cons (by rw [pow_zero, mul_one]) (List.map_congr_left ?_)
  intro j _
  simp only [Function.comp_apply, pow_succ]
  ring

lemma retryGo_fail (act : Nat → Outcome) (m : Nat → String)
    (hact : ∀ i, act i = Outcome.err (m i)) (backoff : ℚ) :
    ∀ (r attempt : Nat) (lastErr : Option String) (cur : ℚ),
      retryGo act backoff attempt (r + 1) lastErr cur =
        (Except.error (some (m (attempt + r))), r + 1,
         (List.range r).map fun j => cur * backoff ^ j) := by
  intro r
  induction r with
  | zero =>
    intro attempt lastErr cur
    simp [retryGo, hact attempt]
  | succ s ih =>
    intro attempt lastErr cur
    rw [retryGo, hact attempt]
    show (if s + 1 = 0 then (Except.error (some (m attempt)), 1, [])
      else
        let rest := retryGo act backoff (attempt + 1) (s + 1) (some (m attempt)) (cur * backoff)
        (rest.1, rest.2.1 + 1, cur :: rest.2.2)) = _
    rw [if_neg (Nat.succ_ne_zero s)]
    rw [ih (attempt + 1) (some (m attempt)) (cur * backoff)]
    show (Except.error (some (m (attempt + 1 + s))), s + 1 + 1,
        cur :: (List.range s).map fun j => cur * backoff * backoff ^ j) = _
    rw [backoff_waits, show attempt + 1 + s = attempt + (s + 1) by omega]

lemma retryGo_succeed (act : Nat → Outcome) (m : Nat → String) (v : Value) (backoff : ℚ) :
    ∀ (k attempt remaining : Nat) (lastErr : Option String) (cur : ℚ),
      k + 1 ≤ remaining →
      (∀ i, i < k → act (attempt + i) = Outcome.err (m (attempt + i))) →
      act (attempt + k) = Outcome.ok v →
      retryGo act backoff attempt remaining lastErr cur =
        (Except.ok v, k + 1, (List.range k).map fun j => cur * backoff ^ j) := by
  intro k
  induction k with
  | zero =>
    intro attempt remaining lastErr cur hrem _ hok
    obtain ⟨r, rfl⟩ : ∃ r, remaining = r + 1 :=
      ⟨remaining - 1, (Nat.succ_pred_eq_of_pos hrem).symm⟩
    rw [Nat.add_zero] at hok
    rw [retryGo, hok]
    rfl
  | succ s ih =>
    intro attempt remaining lastErr cur hrem hfail hok
    obtain ⟨r, rfl⟩ : ∃ r, remaining = r + 1 :=
      ⟨remaining - 1, (Nat.succ_pred_eq_of_pos (Nat.lt_of_lt_of_le (Nat.succ_pos _) hrem)).symm⟩
    have hfa : act attempt = Outcome.err (m attempt) := by
      have := hfail 0 (Nat.succ_pos s); rwa [Nat.add_zero] at this
    have hr : r ≠ 0 := by omega
    rw [retryGo, hfa]
    show (if r = 0 then (Except.error (some (m attempt)), 1, [])
      else
        let rest := retryGo act backoff (attempt + 1) r (some (m attempt)) (cur * backoff)
        (rest.1, rest.2.1 + 1, cur :: rest.2.2)) = _
    rw [if_neg hr]
    rw [ih (attempt + 1) r (some (m attempt)) (cur * backoff) (by omega)
      (fun i hi => by
        have := hfail (i + 1) (Nat.succ_lt_succ hi)
        rwa [show attempt + (i + 1) = attempt + 1 + i by omega] at this)
      (by rwa [show attempt + 1 + s = attempt + (s + 1) by omega])]
    show (Except.ok v, s + 1 + 1,
        cur :: (List.range s).map fun j => cur * backoff * backoff ^ j) = _
    rw [backoff_waits]

/-- C5: `retry_until(action, max_retries, delay, backoff)`.  If the action
fails on attempts `0, …, k-1` and succeeds on attempt `k` with
`k < max_retries`, the call returns the success value after exactly
`k + 1` invocations, having slept `delay * backoff ^ (i-1)` between
attempts `i` and `i+1` (`i = 1, …, k`).  If the action fails on every
attempt and `max_retries ≥ 1`, exactly `max_retries` invocations occur
and the error of the last attempt is raised to the caller. -/
theorem c5_retry_until_backoff (max_retries k : Nat) (delay backoff : ℚ)
    (act : Nat → Outcome) (m : Nat → String) (v : Value) :
    (k < max_retries → (∀ i, i < k → act i = Outcome.err (m i)) →
      act k = Outcome.ok v →
      retry_until act max_retries delay backoff =
        (Except.ok v, k + 1, (List.range k).map fun j => delay * backoff ^ j)) ∧
    ((∀ i, act i = Outcome.err (m i)) → 0 < max_retries →
      retry_until act max_retries delay backoff =
        (Except.error (some (m (max_retries - 1))), max_retries,
         (List.range (max_retries - 1)).map fun j => delay * backoff ^ j)) := by
  constructor
  · intro hk hfail hok
    exact retryGo_succeed act m v backoff k 0 max_retries none delay hk
      (fun i hi => by simpa using hfail i hi) (by simpa using hok)
  · intro hfail hpos
    obtain ⟨r, rfl⟩ : ∃ r, max_retries = r + 1 :=
      ⟨max_retries - 1, (Nat.succ_pred_eq_of_pos hpos).symm⟩
    have := retryGo_fail act m hfail backoff r 0 none delay
    rw [retry_until, this]
    simp

/-- Witness for C5: an action failing twice then succeeding with value `5`
under `max_retries = 3`, `delay = 1`, `backoff = 2` (three invocations,
sleeps `[1, 2]`); and an always-failing action under the same
configuration (three invocations, the last error raised). -/
theorem c5_retry_until_backoff_witness :
    retry_until (fun i => if i = 2 then Outcome.ok (Value.vint 5) else Outcome.err "e")
        3 1 2 = (Except.ok (Value.vint 5), 3, [1, 2]) ∧
    retry_until (fun _ => Outcome.err "x") 3 1 2 =
      (Except.error (some "x"), 3, [1, 2]) := by
  constructor
  · have h := (c5_retry_until_backoff 3 2 1 2
      (fun i => if i = 2 then Outcome.ok (Value.vint 5) else Outcome.err "e")
      (fun _ => "e") (Value.vint 5)).1 (by omega)
      (fun i hi => by interval_cases i <;> rfl) rfl
    rw [h]
    refine congrArg₂ Prod.mk rfl (congrArg₂ Prod.mk rfl ?_)
    norm_num [List.range_succ]
  · have h := (c5_retry_until_backoff 3 2 1 2
      (fun _ => Outcome.err "x") (fun _ => "x") (Value.vint 5)).2
      (fun i => rfl) (by omega)
    rw [h]
    refine congrArg₂ Prod.mk rfl (congrArg₂ Prod.mk rfl ?_)
    norm_num [List.range_succ]

/-! ## Claim C1: topological soundness of the execution order -/

/-- Dependency edge: `a` is a registered task and `b` one of its declared
dependency names. -/
def edgeG (tasks : TaskGraph) (a b : String) : Prop :=
  ∃ t, findTask tasks a = some t ∧ b ∈ t.depends_on

/-- `b` is transitively reachable from `a` along dependency edges. -/
def reachG (tasks : TaskGraph) : String → String → Prop :=
  Relation.TransGen (edgeG tasks)

/-- The dependency graph has no cycle: no name reaches itself through a
nonempty chain of dependency edges. -/
def AcyclicG (tasks : TaskGraph) : Prop := ∀ n, ¬ reachG tasks n n

/-- All names occurring in the graph: task names and dependency names. -/
def relevant (tasks : TaskGraph) : Finset String :=
  (tasks.map (fun t => t.name)).toFinset ∪ (tasks.bind (fun t => t.depends_on)).toFinset

/-- Topological soundness of a prefix of the order: every name already
placed has all its registered dependencies placed before it. -/
def Sound (tasks : TaskGraph) (order : List String) : Prop :=
  ∀ x ∈ order, ∀ d, edgeG tasks x d → isRegistered tasks d = true →
    d ∈ order ∧ order.indexOf d < order.indexOf x

lemma edgeG_src_registered (tasks : TaskGraph) (a b : String)
    (h : edgeG tasks a b) : isRegistered tasks a = true := by
  obtain ⟨t, ht, -⟩ := h
  rw [isRegistered, ht]
  rfl

lemma indexOf_append_self (l : List String) (a : String) (h : a ∉ l) :
    (l ++ [a]).indexOf a = l.length := by
  induction l with
  | nil => simp [List.indexOf_cons]
  | cons x xs ih =>
    have hax : ¬(a == x) = true := by
      simp only [beq_iff_eq]
      intro he
      exact h (he ▸ List.mem_cons_self x xs)
    rw [List.cons_append, List.indexOf_cons]
    have hx : (x == a) = false := by
      cases hbe : x == a with
      | false => rfl
      | true =>
        exfalso
        exact hax (by simpa [beq_iff_eq] using (beq_iff_eq .. |>.mp hbe).symm)
    rw [hx]
    simp only [cond_false, List.length_cons]
    rw [ih (fun hm => h (List.mem_cons_of_mem _ hm))]

lemma Sound_append (tasks : TaskGraph) (order : List String) (name : String)
    (hs : Sound tasks order) (hnm : name ∉ order)
    (hdeps : ∀ d, edgeG tasks name d → isRegistered tasks d = true → d ∈ order) :
    Sound tasks (order ++ [name]) := by
  intro x hx d hed hreg
  rcases List.mem_append.mp hx with hxo | hxn
  · obtain ⟨hdo, hlt⟩ := hs x hxo d hed hreg
    refine ⟨List.mem_append_left _ hdo, ?_⟩
    rw [List.indexOf_append_of_mem hdo, List.indexOf_append_of_mem hxo]
    exact hlt
  · have hxe : x = name := by simpa using hxn
    subst hxe
    have hdo := hdeps d hed hreg
    refine ⟨List.mem_append_left _ hdo, ?_⟩
    rw [List.indexOf_append_of_mem hdo, indexOf_append_self order x hnm]
    exact List.indexOf_lt_length.mpr hdo

lemma dep_mem_relevant (tasks : TaskGraph) (name d : String) (t : AutomationTask)
    (hf : findTask tasks name = some t) (hd : d ∈ t.depends_on) :
    d ∈ relevant tasks := by
  have ht : t ∈ tasks := List.mem_of_find?_eq_some hf
  rw [relevant, Finset.mem_union]
  right
  rw [List.mem_toFinset, List.mem_bind]
  exact ⟨t, ht, hd⟩

lemma card_relevant_lt_graphFuel (tasks : TaskGraph) :
    (relevant tasks).card < graphFuel tasks := by
  have h1 : (relevant tasks).card ≤
      (tasks.map (fun t => t.name)).toFinset.card +
      (tasks.bind (fun t => t.depends_on)).toFinset.card :=
    Finset.card_union_le _ _
  have h2 := (tasks.map (fun t => t.name)).toFinset_card_le
  have h3 := (tasks.bind (fun t => t.depends_on)).toFinset_card_le
  rw [List.length_map] at h2
  have h4 : (tasks.bind (fun t => t.depends_on)).length =
      (tasks.map (fun t => t.depends_on.length)).sum := by
    rw [List.length_bind]
    rfl
  rw [h4] at h3
  rw [graphFuel]
  omega

/-- The measure of the fuel argument: names of the graph not yet
visited. -/
def unseen (tasks : TaskGraph) (visited : List String) : Nat :=
  ((relevant tasks) \ visited.toFinset).card

lemma unseen_mono (tasks : TaskGraph) (v1 v2 : List String)
    (h : ∀ n ∈ v1, n ∈ v2) : unseen tasks v2 ≤ unseen tasks v1 := by
  apply Finset.card_le_card
  apply Finset.sdiff_subset_sdiff (le_refl _)
  intro n hn
  rw [List.mem_toFinset] at hn ⊢
  exact h n hn

lemma unseen_cons_lt (tasks : TaskGraph) (visited : List String) (name : String)
    (hrel : name ∈ relevant tasks) (hnv : name ∉ visited) :
    unseen tasks (name :: visited) < unseen tasks visited := by
  rw [unseen, unseen, List.toFinset_cons]
  rw [show relevant tasks \ insert name visited.toFinset =
      (relevant tasks \ visited.toFinset).erase name by
    ext x
    simp only [Finset.mem_sdiff, Finset.mem_erase, Finset.mem_insert]
    tauto]
  have hmem : name ∈ relevant tasks \ visited.toFinset := by
    rw [Finset.mem_sdiff, List.mem_toFinset]
    exact ⟨hrel, hnv⟩
  rw [Finset.card_erase_of_mem hmem]
  have : 0 < (relevant tasks \ visited.toFinset).card := Finset.card_pos.mpr ⟨name, hmem⟩
  omega

/-- Only registered names are ever appended to the order. -/
lemma visitF_registered (tasks : TaskGraph) : ∀ (fuel : Nat) (name : String)
    (st : List String × List String),
    (∀ n ∈ st.2, isRegistered tasks n = true) →
    ∀ n ∈ (visitF tasks fuel name st).2, isRegistered tasks n = true := by
  intro fuel
  induction fuel with
  | zero => intro name st h; simpa [visitF] using h
  | succ fuel ih =>
    intro name st h
    rw [visitF]
    by_cases hv : name ∈ st.1
    · rw [if_pos hv]; exact h
    · rw [if_neg hv]
      cases hf : findTask tasks name with
      | none => exact h
      | some t =>
        have hfold : ∀ (ds : List String) (st1 : List String × List String),
            (∀ n ∈ st1.2, isRegistered tasks n = true) →
            ∀ n ∈ (ds.foldl (fun s d => visitF tasks fuel d s) st1).2,
              isRegistered tasks n = true := by
          intro ds
          induction ds with
          | nil => intro st1 h1; exact h1
          | cons d ds ihds => intro st1 h1; exact ihds _ (ih d st1 h1)
        intro n hn
        rcases List.mem_append.mp hn with h1 | h2
        · exact hfold t.depends_on (name :: st.1, st.2) h n h1
        · rw [List.mem_singleton.mp h2, isRegistered, hf]
          rfl

/-- Main invariant lemma for one `visit` call: visited only grows and ends
containing the visited name; the order is extended at the end; the order
stays inside visited; no new registered "gray" name (visited but not
ordered) is created and old gray names stay gray; topological soundness
and distinctness of the order are preserved.  `hgray` says every
registered gray name at entry is an in-progress ancestor, i.e. reaches
the visited name along dependency edges. -/
lemma visitF_main (tasks : TaskGraph) (hacy : AcyclicG tasks) :
    ∀ (fuel : Nat) (name : String) (st : List String × List String),
    unseen tasks st.1 < fuel →
    name ∈ relevant tasks →
    (∀ n ∈ st.2, n ∈ st.1) →
    (∀ v, isRegistered tasks v = true → v ∈ st.1 → v ∉ st.2 →
      Relation.ReflTransGen (edgeG tasks) v name) →
    Sound tasks st.2 →
    st.2.Nodup →
    (∀ v ∈ st.1, v ∈ (visitF tasks fuel name st).1) ∧
    (name ∈ (visitF tasks fuel name st).1) ∧
    (∃ new, (visitF tasks fuel name st).2 = st.2 ++ new) ∧
    (∀ n ∈ (visitF tasks fuel name st).2, n ∈ (visitF tasks fuel name st).1) ∧
    (∀ v, isRegistered tasks v = true → v ∈ (visitF tasks fuel name st).1 →
      v ∉ (visitF tasks fuel name st).2 → (v ∈ st.1 ∧ v ∉ st.2)) ∧
    (∀ v ∈ st.1, v ∉ st.2 → v ∉ (visitF tasks fuel name st).2) ∧
    Sound tasks (visitF tasks fuel name st).2 ∧
    (visitF tasks fuel name st).2.Nodup := by
  intro fuel
  induction fuel with
  | zero =>
    intro name st hfuel _ _ _ _ _
    exact absurd hfuel (Nat.not_lt_zero _)
  | succ fuel ih =>
    intro name st hfuel hname hsub hgray hsound hnodup
    by_cases hv : name ∈ st.1
    · have hstep : visitF tasks (fuel + 1) name st = st := by
        rw [visitF, if_pos hv]
      rw [hstep]
      exact ⟨fun v hv2 => hv2, hv, ⟨[], (List.append_nil st.2).symm⟩, hsub,
        fun v _ h2 h3 => ⟨h2, h3⟩, fun v _ h2 => h2, hsound, hnodup⟩
    · cases hf : findTask tasks name with
      | none =>
        have hstep : visitF tasks (fuel + 1) name st = (name :: st.1, st.2) := by
          rw [visitF, if_neg hv, hf]
        rw [hstep]
        refine ⟨fun v hv2 => List.mem_cons_of_mem _ hv2, List.mem_cons_self _ _,
          ⟨[], (List.append_nil st.2).symm⟩,
          fun n hn => List.mem_cons_of_mem _ (hsub n hn),
          ?_, fun v _ h2 => h2, hsound, hnodup⟩
        intro v hreg hv2 hnotord
        rcases List.mem_cons.mp hv2 with rfl | hv3
        · exfalso
          rw [isRegistered, hf] at hreg
          exact absurd hreg (by simp)
        · exact ⟨hv3, hnotord⟩
      | some t =>
        have hstep : visitF tasks (fuel + 1) name st =
            ((t.depends_on.foldl (fun s d => visitF tasks fuel d s) (name :: st.1, st.2)).1,
             (t.depends_on.foldl (fun s d => visitF tasks fuel d s)
               (name :: st.1, st.2)).2 ++ [name]) := by
          rw [visitF, if_neg hv, hf]
        have hnotord0 : name ∉ st.2 := fun hmem => hv (hsub name hmem)
        have hfold : ∀ (ds : List String), (∀ d ∈ ds, d ∈ t.depends_on) →
            ∀ (cur : List String × List String),
            (∀ v ∈ name :: st.1, v ∈ cur.1) →
            (∀ n ∈ cur.2, n ∈ cur.1) →
            (∀ v, isRegistered tasks v = true → v ∈ cur.1 → v ∉ cur.2 →
              ((v ∈ st.1 ∧ v ∉ st.2) ∨ v = name)) →
            Sound tasks cur.2 →
            cur.2.Nodup →
            (∃ new, cur.2 = st.2 ++ new) →
            (∀ v ∈ st.1, v ∉ st.2 → v ∉ cur.2) →
            name ∉ cur.2 →
            ((∀ v ∈ cur.1, v ∈ (ds.foldl (fun s d => visitF tasks fuel d s) cur).1) ∧
             (∀ n ∈ (ds.foldl (fun s d => visitF tasks fuel d s) cur).2,
               n ∈ (ds.foldl (fun s d => visitF tasks fuel d s) cur).1) ∧
             (∀ v, isRegistered tasks v = true →
               v ∈ (ds.foldl (fun s d => visitF tasks fuel d s) cur).1 →
               v ∉ (ds.foldl (fun s d => visitF tasks fuel d s) cur).2 →
               ((v ∈ st.1 ∧ v ∉ st.2) ∨ v = name)) ∧
             Sound tasks (ds.foldl (fun s d => visitF tasks fuel d s) cur).2 ∧
             (ds.foldl (fun s d => visitF tasks fuel d s) cur).2.Nodup ∧
             (∃ new, (ds.foldl (fun s d => visitF tasks fuel d s) cur).2 = st.2 ++ new) ∧
             (∀ v ∈ st.1, v ∉ st.2 →
               v ∉ (ds.foldl (fun s d => visitF tasks fuel d s) cur).2) ∧
             name ∉ (ds.foldl (fun s d => visitF tasks fuel d s) cur).2 ∧
             (∀ d ∈ ds, d ∈ (ds.foldl (fun s d => visitF tasks fuel d s) cur).1)) := by
          intro ds
          induction ds with
          | nil =>
            intro _ cur h1 h2 h3 h4 h5 h6 h7 h8
            exact ⟨fun v hv2 => hv2, h2, h3, h4, h5, h6, h7, h8, by simp⟩
          | cons d ds ihds =>
            intro hds cur h1 h2 h3 h4 h5 h6 h7 h8
            have hdt : d ∈ t.depends_on := hds d (List.mem_cons_self _ _)
            have hdrel : d ∈ relevant tasks := dep_mem_relevant tasks name d t hf hdt
            have hfuelc : unseen tasks cur.1 < fuel := by
              have hm1 : unseen tasks cur.1 ≤ unseen tasks (name :: st.1) :=
                unseen_mono tasks _ _ h1
              have hm2 : unseen tasks (name :: st.1) < unseen tasks st.1 :=
                unseen_cons_lt tasks st.1 name hname hv
              omega
            have hed : edgeG tasks name d := ⟨t, hf, hdt⟩
            have hgrayc : ∀ v, isRegistered tasks v = true → v ∈ cur.1 → v ∉ cur.2 →
                Relation.ReflTransGen (edgeG tasks) v d := by
              intro v hreg hvc hvno
              rcases h3 v hreg hvc hvno with ⟨hv1, hv2⟩ | rfl
              · exact Relation.ReflTransGen.tail (hgray v hreg hv1 hv2) hed
              · exact Relation.ReflTransGen.single hed
            obtain ⟨m1, mname, mex, msub, m5a, m5b, msound, mnodup⟩ :=
              ih d cur hfuelc hdrel h2 hgrayc h4 h5
            have hnext := ihds (fun d2 hd2 => hds d2 (List.mem_cons_of_mem _ hd2))
              (visitF tasks fuel d cur)
              (fun v hv2 => m1 v (h1 v hv2))
              msub
              (fun v hreg hv2 hv3 =>
                have hc := m5a v hreg hv2 hv3
                h3 v hreg hc.1 hc.2)
              msound
              mnodup
              (by
                obtain ⟨n1, hn1⟩ := h6
                obtain ⟨n2, hn2⟩ := mex
                exact ⟨n1 ++ n2, by rw [hn2, hn1, List.append_assoc]⟩)
              (fun v hv1 hv2 =>
                m5b v (h1 v (List.mem_cons_of_mem _ hv1)) (h7 v hv1 hv2))
              (m5b name (h1 name (List.mem_cons_self _ _)) h8)
            obtain ⟨g1, g2, g3, g4, g5, g6, g7, g8, g9⟩ := hnext
            refine ⟨fun v hv2 => g1 v (m1 v hv2), g2, g3, g4, g5, g6, g7, g8, ?_⟩
            intro d2 hd2
            rcases List.mem_cons.mp hd2 with rfl | hd3
            · exact g1 d2 mname
            · exact g9 d2 hd3
        obtain ⟨f1, fsub, f5a, fsound, fnodup, fex, f5b, fname, fdeps⟩ :=
          hfold t.depends_on (fun d hd => hd) (name :: st.1, st.2)
            (fun v hv2 => hv2)
            (fun n hn => List.mem_cons_of_mem _ (hsub n hn))
            (by
              intro v hreg hv2 hv3
              rcases List.mem_cons.mp hv2 with rfl | hv4
              · exact Or.inr rfl
              · exact Or.inl ⟨hv4, hv3⟩)
            hsound hnodup ⟨[], (List.append_nil st.2).symm⟩
            (fun v _ hv2 => hv2) hnotord0
        rw [hstep]
        have hdepord : ∀ d, edgeG tasks name d → isRegistered tasks d = true →
            d ∈ (t.depends_on.foldl (fun s d => visitF tasks fuel d s)
              (name :: st.1, st.2)).2 := by
          intro d hed hreg
          obtain ⟨t2, ht2, hd2⟩ := hed
          rw [hf] at ht2
          have ht2e : t2 = t := by
            have h := Option.some.injEq .. ▸ ht2
            exact h.symm
          rw [ht2e] at hd2
          have hdin := fdeps d hd2
          by_cases hdord : d ∈ (t.depends_on.foldl (fun s d => visitF tasks fuel d s)
              (name :: st.1, st.2)).2
          · exact hdord
          · exfalso
            rcases f5a d hreg hdin hdord with ⟨hg1, hg2⟩ | rfl
            · exact hacy name (Relation.TransGen.head' ⟨t, hf, hd2⟩
                (hgray d hreg hg1 hg2))
            · exact hacy d (Relation.TransGen.single ⟨t, hf, hd2⟩)
        refine ⟨fun v hv2 => f1 v (List.mem_cons_of_mem _ hv2),
          f1 name (List.mem_cons_self _ _), ?_, ?_, ?_, ?_, ?_, ?_⟩
        · obtain ⟨n1, hn1⟩ := fex
          exact ⟨n1 ++ [name], by rw [hn1, List.append_assoc]⟩
        · intro n hn
          rcases List.mem_append.mp hn with h1 | h2
          · exact fsub n h1
          · rw [List.mem_singleton.mp h2]
            exact f1 name (List.mem_cons_self _ _)
        · intro v hreg hv2 hv3
          have hvno : v ∉ (t.depends_on.foldl (fun s d => visitF tasks fuel d s)
              (name :: st.1, st.2)).2 ∧ v ≠ name := by
            constructor
            · intro hc
              exact hv3 (List.mem_append_left _ hc)
            · intro hc
              exact hv3 (List.mem_append_right _ (by rw [hc]; exact List.mem_singleton_self _))
          rcases f5a v hreg hv2 hvno.1 with h | rfl
          · exact h
          · exact absurd rfl hvno.2
        · intro v hv1 hv2
          intro hc
          rcases List.mem_append.mp hc with h1 | h2
          · exact f5b v hv1 hv2 h1
          · rw [List.mem_singleton.mp h2] at hv1
            exact hv hv1
        · exact Sound_append tasks _ name fsound fname hdepord
        · rw [List.nodup_append]
          exact ⟨fnodup, List.nodup_singleton _,
            fun a ha hb => fname (by rwa [List.mem_singleton.mp hb] at ha)⟩

lemma unseen_le_card (tasks : TaskGraph) (v : List String) :
    unseen tasks v ≤ (relevant tasks).card :=
  Finset.card_le_card (Finset.sdiff_subset)

/-- Top-level loop of `_resolve_order`: iterating `visit` over names keeps
the order sound, duplicate-free, inside visited, with no registered
visited name left unordered, and ends with all processed names
visited. -/
lemma resolve_fold_main (tasks : TaskGraph) (hacy : AcyclicG tasks) :
    ∀ (ns : List String), (∀ n ∈ ns, n ∈ relevant tasks) →
    ∀ (st : List String × List String),
    (∀ n ∈ st.2, n ∈ st.1) →
    (∀ v, isRegistered tasks v = true → v ∈ st.1 → v ∈ st.2) →
    Sound tasks st.2 →
    st.2.Nodup →
    ((∀ v ∈ st.1, v ∈ (ns.foldl (fun s n => visitF tasks (graphFuel tasks) n s) st).1) ∧
     (∀ v, isRegistered tasks v = true →
       v ∈ (ns.foldl (fun s n => visitF tasks (graphFuel tasks) n s) st).1 →
       v ∈ (ns.foldl (fun s n => visitF tasks (graphFuel tasks) n s) st).2) ∧
     Sound tasks (ns.foldl (fun s n => visitF tasks (graphFuel tasks) n s) st).2 ∧
     (ns.foldl (fun s n => visitF tasks (graphFuel tasks) n s) st).2.Nodup ∧
     (∀ n ∈ ns, n ∈ (ns.foldl (fun s n => visitF tasks (graphFuel tasks) n s) st).1)) := by
  intro ns
  induction ns with
  | nil =>
    intro _ st h1 h2 h3 h4
    exact ⟨fun v hv => hv, h2, h3, h4, by simp⟩
  | cons n ns ihns =>
    intro hns st h1 h2 h3 h4
    have hfuel : unseen tasks st.1 < graphFuel tasks :=
      Nat.lt_of_le_of_lt (unseen_le_card tasks st.1) (card_relevant_lt_graphFuel tasks)
    obtain ⟨m1, mname, mex, msub, m5a, m5b, msound, mnodup⟩ :=
      visitF_main tasks hacy (graphFuel tasks) n st hfuel
        (hns n (List.mem_cons_self _ _)) h1
        (fun v hreg hv1 hv2 => absurd (h2 v hreg hv1) hv2) h3 h4
    have hgray2 : ∀ v, isRegistered tasks v = true →
        v ∈ (visitF tasks (graphFuel tasks) n st).1 →
        v ∈ (visitF tasks (graphFuel tasks) n st).2 := by
      intro v hreg hv1
      by_cases hv2 : v ∈ (visitF tasks (graphFuel tasks) n st).2
      · exact hv2
      · obtain ⟨h5, h6⟩ := m5a v hreg hv1 hv2
        exact absurd (h2 v hreg h5) h6
    obtain ⟨g1, g2, g3, g4, g5⟩ := ihns (fun n2 hn2 => hns n2 (List.mem_cons_of_mem _ hn2))
      (visitF tasks (graphFuel tasks) n st) msub hgray2 msound mnodup
    refine ⟨fun v hv => g1 v (m1 v hv), g2, g3, g4, ?_⟩
    intro n2 hn2
    rcases List.mem_cons.mp hn2 with rfl | hn3
    · exact g1 n2 mname
    · exact g5 n2 hn3

lemma registered_name_mem (tasks : TaskGraph) (n : String)
    (h : isRegistered tasks n = true) : n ∈ tasks.map (fun t => t.name) := by
  rw [isRegistered] at h
  cases hf : findTask tasks n with
  | none => rw [hf] at h; exact absurd h (by simp)
  | some t =>
    have hmem := List.mem_of_find?_eq_some hf
    have hp := List.find?_some hf
    have hn : t.name = n := by simpa using hp
    rw [List.mem_map]
    exact ⟨t, hmem, hn⟩

lemma resolve_order_registered (tasks : TaskGraph) :
    ∀ n ∈ resolve_order tasks, isRegistered tasks n = true := by
  rw [resolve_order]
  have hfold : ∀ (ns : List String) (st : List String × List String),
      (∀ n ∈ st.2, isRegistered tasks n = true) →
      ∀ n ∈ (ns.foldl (fun s n2 => visitF tasks (graphFuel tasks) n2 s) st).2,
        isRegistered tasks n = true := by
    intro ns
    induction ns with
    | nil => intro st h; exact h
    | cons n2 ns ihns =>
      intro st h
      exact ihns _ (visitF_registered tasks (graphFuel tasks) n2 st h)
  exact hfold (tasks.map (fun t => t.name)) ([], []) (by simp)

/-- C1: on an acyclic dependency graph, the order computed by
`_resolve_order` (and executed by `execute`) contains each registered
name exactly once — unregistered dependency names are silently ignored —
and places every task after all of its transitively reachable registered
dependencies. -/
theorem c1_resolve_order_topological (tasks : TaskGraph) (hacy : AcyclicG tasks) :
    (resolve_order tasks).Nodup ∧
    (∀ n, n ∈ resolve_order tasks ↔ isRegistered tasks n = true) ∧
    (∀ t d, t ∈ resolve_order tasks → reachG tasks t d →
      isRegistered tasks d = true →
      d ∈ resolve_order tasks ∧
      (resolve_order tasks).indexOf d < (resolve_order tasks).indexOf t) := by
  obtain ⟨f1, f2, f3, f4, f5⟩ := resolve_fold_main tasks hacy
    (tasks.map (fun t => t.name))
    (by
      intro n hn
      rw [relevant, Finset.mem_union]
      left
      rwa [List.mem_toFinset])
    ([], []) (by simp) (by simp) (by intro x hx; exact absurd hx (List.not_mem_nil x))
    List.nodup_nil
  have hsound : Sound tasks (resolve_order tasks) := f3
  have hnodup : (resolve_order tasks).Nodup := f4
  refine ⟨hnodup, ?_, ?_⟩
  · intro n
    constructor
    · exact resolve_order_registered tasks n
    · intro hreg
      exact f2 n hreg (f5 n (registered_name_mem tasks n hreg))
  · intro t d ht hreach
    induction hreach with
    | single h =>
      intro hreg
      exact hsound t ht _ h hreg
    | tail hab hbc ih =>
      intro hreg
      obtain ⟨hbo, hblt⟩ := ih (edgeG_src_registered tasks _ _ hbc)
      obtain ⟨hco, hclt⟩ := hsound _ hbo _ hbc hreg
      exact ⟨hco, Nat.lt_trans hclt hblt⟩

/-- Witness for C1: the acyclic two-task graph where `b` depends on `a`;
the computed order places `a` before `b`. -/
theorem c1_resolve_order_topological_witness :
    "a" ∈ resolve_order [{ name := "b", depends_on := ["a"] }, { name := "a" }] ∧
    (resolve_order [{ name := "b", depends_on := ["a"] }, { name := "a" }]).indexOf "a" <
      (resolve_order [{ name := "b", depends_on := ["a"] }, { name := "a" }]).indexOf "b" := by
  have hedge : ∀ x y,
      edgeG [{ name := "b", depends_on := ["a"] }, { name := "a" }] x y →
      x = "b" ∧ y = "a" := by
    intro x y hexy
    obtain ⟨t, ht, hd⟩ := hexy
    have hmem := List.mem_of_find?_eq_some ht
    have hp := List.find?_some ht
    simp only [List.mem_cons, List.not_mem_nil, or_false] at hmem
    rcases hmem with rfl | rfl
    · constructor
      · have hx : ("b" == x) = true := hp
        exact (beq_iff_eq .. |>.mp hx).symm
      · simpa using hd
    · exact absurd hd (by simp)
  have hacy : AcyclicG [{ name := "b", depends_on := ["a"] }, { name := "a" }] := by
    intro n hn
    have hchar : ∀ a b,
        Relation.TransGen (edgeG [{ name := "b", depends_on := ["a"] }, { name := "a" }]) a b →
        a = "b" ∧ b = "a" := by
      intro a b hab
      induction hab with
      | single h => exact hedge _ _ h
      | tail hab2 hbc ih => exact ⟨ih.1, (hedge _ _ hbc).2⟩
    obtain ⟨h1, h2⟩ := hchar n n hn
    rw [h1] at h2
    exact absurd h2 (by decide)
  have hmain := c1_resolve_order_topological
    [{ name := "b", depends_on := ["a"] }, { name := "a" }] hacy
  have hbmem : "b" ∈ resolve_order [{ name := "b", depends_on := ["a"] }, { name := "a" }] :=
    (hmain.2.1 "b").mpr rfl
  exact hmain.2.2 "b" "a" hbmem
    (Relation.TransGen.single ⟨{ name := "b", depends_on := ["a"] }, rfl, by simp⟩) rfl

/-! ## Claim C3: dependency gating -/

lemma find_key_map_overwrite {α : Type} (k k2 : String) (v2 : α) (hne : k ≠ k2) :
    ∀ m : List (String × α),
      (m.map (fun x => if x.1 == k2 then (k2, v2) else x)).find? (fun x => x.1 == k) =
      m.find? (fun x => x.1 == k) := by
  intro m
  have hk2k : (k2 == k) = false := by
    cases hb : (k2 == k) with
    | false => rfl
    | true => exact absurd (beq_iff_eq .. |>.mp hb).symm hne
  induction m with
  | nil => rfl
  | cons x xs ih =>
    rw [List.map_cons]
    by_cases hx : (x.1 == k2) = true
    · have hx1 : x.1 = k2 := beq_iff_eq .. |>.mp hx
      rw [if_pos hx]
      rw [List.find?_cons_of_neg, List.find?_cons_of_neg]
      · exact ih
      · simp [hx1, hk2k]
      · simp [hk2k]
    · rw [if_neg hx]
      by_cases hxk : (x.1 == k) = true
      · rw [List.find?_cons_of_pos, List.find?_cons_of_pos]
        · exact hxk
        · exact hxk
      · rw [List.find?_cons_of_neg, List.find?_cons_of_neg]
        · exact ih
        · simpa using hxk
        · simpa using hxk

lemma find_key_append {α : Type} (k k2 : String) (v2 : α) (hne : k ≠ k2) :
    ∀ m : List (String × α),
      (m ++ [(k2, v2)]).find? (fun x => x.1 == k) = m.find? (fun x => x.1 == k) := by
  intro m
  have hk2k : (k2 == k) = false := by
    cases hb : (k2 == k) with
    | false => rfl
    | true => exact absurd (beq_iff_eq .. |>.mp hb).symm hne
  induction m with
  | nil =>
    rw [List.nil_append, List.find?_cons_of_neg]
    simp [hk2k]
  | cons x xs ih =>
    rw [List.cons_append]
    by_cases hxk : (x.1 == k) = true
    · rw [List.find?_cons_of_pos, List.find?_cons_of_pos]
      · exact hxk
      · exact hxk
    · rw [List.find?_cons_of_neg, List.find?_cons_of_neg]
      · exact ih
      · simpa using hxk
      · simpa using hxk

/-- Python dict assignment does not disturb other keys. -/
lemma dictGet_dictInsert_ne {α : Type} (m : List (String × α)) (k k2 : String)
    (v2 : α) (hne : k ≠ k2) : dictGet (dictInsert m k2 v2) k = dictGet m k := by
  unfold dictGet dictInsert
  by_cases h : m.any fun x => x.1 == k2
  · rw [if_pos h, find_key_map_overwrite k k2 v2 hne m]
  · rw [if_neg h, find_key_append k k2 v2 hne m]

/-- Acyclicity-free core of the `visit` invariants: visited grows and ends
holding the name, the order stays inside visited, and no new registered
gray name appears. -/
lemma visitF_basic (tasks : TaskGraph) : ∀ (fuel : Nat) (name : String)
    (st : List String × List String),
    unseen tasks st.1 < fuel →
    name ∈ relevant tasks →
    (∀ n ∈ st.2, n ∈ st.1) →
    (∀ v ∈ st.1, v ∈ (visitF tasks fuel name st).1) ∧
    (name ∈ (visitF tasks fuel name st).1) ∧
    (∀ n ∈ (visitF tasks fuel name st).2, n ∈ (visitF tasks fuel name st).1) ∧
    (∀ v, isRegistered tasks v = true → v ∈ (visitF tasks fuel name st).1 →
      v ∉ (visitF tasks fuel name st).2 → (v ∈ st.1 ∧ v ∉ st.2)) := by
  intro fuel
  induction fuel with
  | zero =>
    intro name st hfuel _ _
    exact absurd hfuel (Nat.not_lt_zero _)
  | succ fuel ih =>
    intro name st hfuel hname hsub
    by_cases hv : name ∈ st.1
    · have hstep : visitF tasks (fuel + 1) name st = st := by
        rw [visitF, if_pos hv]
      rw [hstep]
      exact ⟨fun v hv2 => hv2, hv, hsub, fun v _ h2 h3 => ⟨h2, h3⟩⟩
    · cases hf : findTask tasks name with
      | none =>
        have hstep : visitF tasks (fuel + 1) name st = (name :: st.1, st.2) := by
          rw [visitF, if_neg hv, hf]
        rw [hstep]
        refine ⟨fun v hv2 => List.mem_cons_of_mem _ hv2, List.mem_cons_self _ _,
          fun n hn => List.mem_cons_of_mem _ (hsub n hn), ?_⟩
        intro v hreg hv2 hnotord
        rcases List.mem_cons.mp hv2 with rfl | hv3
        · exfalso
          rw [isRegistered, hf] at hreg
          exact absurd hreg (by simp)
        · exact ⟨hv3, hnotord⟩
      | some t =>
        have hstep : visitF tasks (fuel + 1) name st =
            ((t.depends_on.foldl (fun s d => visitF tasks fuel d s) (name :: st.1, st.2)).1,
             (t.depends_on.foldl (fun s d => visitF tasks fuel d s)
               (name :: st.1, st.2)).2 ++ [name]) := by
          rw [visitF, if_neg hv, hf]
        have hfold : ∀ (ds : List String), (∀ d ∈ ds, d ∈ t.depends_on) →
            ∀ (cur : List String × List String),
            (∀ v ∈ name :: st.1, v ∈ cur.1) →
            (∀ n ∈ cur.2, n ∈ cur.1) →
            (∀ v, isRegistered tasks v = true → v ∈ cur.1 → v ∉ cur.2 →
              ((v ∈ st.1 ∧ v ∉ st.2) ∨ v = name)) →
            ((∀ v ∈ cur.1, v ∈ (ds.foldl (fun s d => visitF tasks fuel d s) cur).1) ∧
             (∀ n ∈ (ds.foldl (fun s d => visitF tasks fuel d s) cur).2,
               n ∈ (ds.foldl (fun s d => visitF tasks fuel d s) cur).1) ∧
             (∀ v, isRegistered tasks v = true →
               v ∈ (ds.foldl (fun s d => visitF tasks fuel d s) cur).1 →
               v ∉ (ds.foldl (fun s d => visitF tasks fuel d s) cur).2 →
               ((v ∈ st.1 ∧ v ∉ st.2) ∨ v = name))) := by
          intro ds
          induction ds with
          | nil =>
            intro _ cur h1 h2 h3
            exact ⟨fun v hv2 => hv2, h2, h3⟩
          | cons d ds ihds =>
            intro hds cur h1 h2 h3
            have hdrel : d ∈ relevant tasks :=
              dep_mem_relevant tasks name d t hf (hds d (List.mem_cons_self _ _))
            have hfuelc : unseen tasks cur.1 < fuel := by
              have hm1 : unseen tasks cur.1 ≤ unseen tasks (name :: st.1) :=
                unseen_mono tasks _ _ h1
              have hm2 : unseen tasks (name :: st.1) < unseen tasks st.1 :=
                unseen_cons_lt tasks st.1 name hname hv
              omega
            obtain ⟨m1, mname, msub, m5a⟩ := ih d cur hfuelc hdrel h2
            obtain ⟨g1, g2, g3⟩ := ihds (fun d2 hd2 => hds d2 (List.mem_cons_of_mem _ hd2))
              (visitF tasks fuel d cur)
              (fun v hv2 => m1 v (h1 v hv2))
              msub
              (fun v hreg hv2 hv3 =>
                have hc := m5a v hreg hv2 hv3
                h3 v hreg hc.1 hc.2)
            exact ⟨fun v hv2 => g1 v (m1 v hv2), g2, g3⟩
        obtain ⟨f1, fsub, f5a⟩ :=
          hfold t.depends_on (fun d hd => hd) (name :: st.1, st.2)
            (fun v hv2 => hv2)
            (fun n hn => List.mem_cons_of_mem _ (hsub n hn))
            (by
              intro v hreg hv2 hv3
              rcases List.mem_cons.mp hv2 with rfl | hv4
              · exact Or.inr rfl
              · exact Or.inl ⟨hv4, hv3⟩)
        rw [hstep]
        refine ⟨fun v hv2 => f1 v (List.mem_cons_of_mem _ hv2),
          f1 name (List.mem_cons_self _ _), ?_, ?_⟩
        · intro n hn
          rcases List.mem_append.mp hn with h1 | h2
          · exact fsub n h1
          · rw [List.mem_singleton.mp h2]
            exact f1 name (List.mem_cons_self _ _)
        · intro v hreg hv2 hv3
          have hvno : v ∉ (t.depends_on.foldl (fun s d => visitF tasks fuel d s)
              (name :: st.1, st.2)).2 ∧ v ≠ name := by
            constructor
            · intro hc
              exact hv3 (List.mem_append_left _ hc)
            · intro hc
              exact hv3 (List.mem_append_right _
                (by rw [hc]; exact List.mem_singleton_self _))
          rcases f5a v hreg hv2 hvno.1 with h | rfl
          · exact h
          · exact absurd rfl hvno.2

/-- Every registered name appears in the computed execution order — with
no acyclicity assumption. -/
lemma resolve_order_complete (tasks : TaskGraph) (n : String)
    (hreg : isRegistered tasks n = true) : n ∈ resolve_order tasks := by
  have hfold : ∀ (ns : List String), (∀ n2 ∈ ns, n2 ∈ relevant tasks) →
      ∀ (st : List String × List String),
      (∀ n2 ∈ st.2, n2 ∈ st.1) →
      (∀ v, isRegistered tasks v = true → v ∈ st.1 → v ∈ st.2) →
      ((∀ v ∈ st.1,
         v ∈ (ns.foldl (fun s n2 => visitF tasks (graphFuel tasks) n2 s) st).1) ∧
       (∀ v, isRegistered tasks v = true →
         v ∈ (ns.foldl (fun s n2 => visitF tasks (graphFuel tasks) n2 s) st).1 →
         v ∈ (ns.foldl (fun s n2 => visitF tasks (graphFuel tasks) n2 s) st).2) ∧
       (∀ n2 ∈ ns,
         n2 ∈ (ns.foldl (fun s n2 => visitF tasks (graphFuel tasks) n2 s) st).1)) := by
    intro ns
    induction ns with
    | nil =>
      intro _ st h1 h2
      exact ⟨fun v hv => hv, h2, by simp⟩
    | cons n2 ns ihns =>
      intro hns st h1 h2
      have hfuel : unseen tasks st.1 < graphFuel tasks :=
        Nat.lt_of_le_of_lt (unseen_le_card tasks st.1) (card_relevant_lt_graphFuel tasks)
      obtain ⟨m1, mname, msub, m5a⟩ :=
        visitF_basic tasks (graphFuel tasks) n2 st hfuel
          (hns n2 (List.mem_cons_self _ _)) h1
      have hgray2 : ∀ v, isRegistered tasks v = true →
          v ∈ (visitF tasks (graphFuel tasks) n2 st).1 →
          v ∈ (visitF tasks (graphFuel tasks) n2 st).2 := by
        intro v hreg2 hv1
        by_cases hv2 : v ∈ (visitF tasks (graphFuel tasks) n2 st).2
        · exact hv2
        · obtain ⟨h5, h6⟩ := m5a v hreg2 hv1 hv2
          exact absurd (h2 v hreg2 h5) h6
      obtain ⟨g1, g2, g3⟩ := ihns (fun n3 hn3 => hns n3 (List.mem_cons_of_mem _ hn3))
        (visitF tasks (graphFuel tasks) n2 st) msub hgray2
      refine ⟨fun v hv => g1 v (m1 v hv), g2, ?_⟩
      intro n3 hn3
      rcases List.mem_cons.mp hn3 with rfl | hn4
      · exact g1 n3 mname
      · exact g3 n3 hn4
  obtain ⟨f1, f2, f3⟩ := hfold (tasks.map (fun t => t.name))
    (by
      intro n2 hn2
      rw [relevant, Finset.mem_union]
      left
      rwa [List.mem_toFinset])
    ([], []) (by intro x hx; exact absurd hx (List.not_mem_nil x))
    (by intro v _ hv; exact absurd hv (List.not_mem_nil v))
  exact f2 n hreg (f3 n (registered_name_mem tasks n hreg))

/-- When a task's dependencies are all met, each declared dependency name
is a key of the result dict. -/
lemma dep_completed_of_met (results : List (String × TaskResult)) (t : AutomationTask)
    (hmet : dependencies_met results t = true) (d : String) (hd : d ∈ t.depends_on) :
    ∃ kv ∈ results, kv.1 = d := by
  rw [dependencies_met] at hmet
  have hall := List.all_eq_true.mp hmet d hd
  cases hg : dictGet results d with
  | none => rw [hg] at hall; exact absurd hall (by simp)
  | some r =>
    rw [dictGet] at hg
    cases hfind : results.find? (fun x => x.1 == d) with
    | none => rw [hfind] at hg; exact absurd hg (by simp)
    | some kv =>
      have hmem := List.mem_of_find?_eq_some hfind
      have hp := List.find?_some hfind
      exact ⟨kv, hmem, beq_iff_eq .. |>.mp hp⟩

/-- A task that declares an unregistered dependency name is never invoked
(its dependencies can never all be completed, since the result dict only
ever holds registered names), and the result keys stay registered. -/
lemma executeLoop_no_invoke (tasks : TaskGraph)
    (acts : String → List (String × Value) → Nat → Outcome)
    (name : String) (t : AutomationTask) (d : String)
    (hf : findTask tasks name = some t) (hd : d ∈ t.depends_on)
    (hdreg : isRegistered tasks d = false) :
    ∀ (order : List String) (st : RunState),
    (∀ n ∈ order, isRegistered tasks n = true) →
    (∀ kv ∈ st.results, isRegistered tasks kv.1 = true) →
    (∀ e ∈ st.invoked, e.1 ≠ name) →
    (∀ e ∈ (executeLoop tasks acts order st).1.invoked, e.1 ≠ name) ∧
    (∀ kv ∈ (executeLoop tasks acts order st).1.results,
      isRegistered tasks kv.1 = true) := by
  intro order
  induction order with
  | nil => intro st _ h2 h3; exact ⟨h3, h2⟩
  | cons n2 rest ihr =>
    intro st horder hkeys hinv
    have hn2reg := horder n2 (List.mem_cons_self _ _)
    have horder2 : ∀ n3 ∈ rest, isRegistered tasks n3 = true :=
      fun n3 h3 => horder n3 (List.mem_cons_of_mem _ h3)
    cases hf2 : findTask tasks n2 with
    | none =>
      rw [executeLoop_not_found tasks acts n2 rest st hf2]
      exact ihr st horder2 hkeys hinv
    | some t2 =>
      by_cases hdep : dependencies_met st.results t2 = true
      · have hne : n2 ≠ name := by
          intro he
          subst he
          rw [hf2] at hf
          have ht : t2 = t := Option.some.injEq .. ▸ hf
          subst ht
          obtain ⟨kv, hkv, hkvd⟩ := dep_completed_of_met st.results t2 hdep d hd
          have h5 := hkeys kv hkv
          rw [hkvd] at h5
          rw [h5] at hdreg
          exact absurd hdreg (by simp)
        cases hres : (execute_task t2 (acts n2 st.context)).1 with
        | error msg =>
          rw [executeLoop_err tasks acts n2 rest st t2 msg hf2 hdep hres]
          refine ⟨?_, hkeys⟩
          intro e he
          rcases List.mem_append.mp he with h1 | h2
          · exact hinv e h1
          · rw [List.mem_singleton.mp h2]
            exact hne
        | ok res =>
          rw [executeLoop_ok tasks acts n2 rest st t2 res hf2 hdep hres]
          apply ihr
          · exact horder2
          · intro kv hkv
            rcases mem_dictInsert st.results n2 res kv hkv with h1 | h2
            · rw [h1]; exact hn2reg
            · exact hkeys kv h2
          · intro e he
            rcases List.mem_append.mp he with h1 | h2
            · exact hinv e h1
            · rw [List.mem_singleton.mp h2]
              exact hne
      · have hdep2 : dependencies_met st.results t2 = false := by
          cases hb : dependencies_met st.results t2 with
          | false => rfl
          | true => exact absurd hb hdep
        rw [executeLoop_skip tasks acts n2 rest st t2 hf2 hdep2]
        apply ihr
        · exact horder2
        · intro kv hkv
          rcases mem_dictInsert st.results n2 (skippedResult n2) kv hkv with h1 | h2
          · rw [h1]; exact hn2reg
          · exact hkeys kv h2
        · exact hinv

/-- A recorded result under a name not processed later survives to the
end of the loop. -/
lemma executeLoop_get_preserved (tasks : TaskGraph)
    (acts : String → List (String × Value) → Nat → Outcome) :
    ∀ (order : List String) (st : RunState) (k : String) (v : TaskResult),
    dictGet st.results k = some v → k ∉ order →
    dictGet (executeLoop tasks acts order st).1.results k = some v := by
  intro order
  induction order with
  | nil => intro st k v h1 _; exact h1
  | cons n2 rest ihr =>
    intro st k v h1 h2
    have hkn : k ≠ n2 := fun he => h2 (he ▸ List.mem_cons_self _ _)
    have hkrest : k ∉ rest := fun hm => h2 (List.mem_cons_of_mem _ hm)
    cases hf2 : findTask tasks n2 with
    | none =>
      rw [executeLoop_not_found tasks acts n2 rest st hf2]
      exact ihr st k v h1 hkrest
    | some t2 =>
      by_cases hdep : dependencies_met st.results t2 = true
      · cases hres : (execute_task t2 (acts n2 st.context)).1 with
        | error msg =>
          rw [executeLoop_err tasks acts n2 rest st t2 msg hf2 hdep hres]
          exact h1
        | ok res =>
          rw [executeLoop_ok tasks acts n2 rest st t2 res hf2 hdep hres]
          apply ihr
          · show dictGet (dictInsert st.results n2 res) k = some v
            rw [dictGet_dictInsert_ne st.results k n2 res hkn]
            exact h1
          · exact hkrest
      · have hdep2 : dependencies_met st.results t2 = false := by
          cases hb : dependencies_met st.results t2 with
          | false => rfl
          | true => exact absurd hb hdep
        rw [executeLoop_skip tasks acts n2 rest st t2 hf2 hdep2]
        apply ihr
        · show dictGet (dictInsert st.results n2 (skippedResult n2)) k = some v
          rw [dictGet_dictInsert_ne st.results k n2 (skippedResult n2) hkn]
          exact h1
        · exact hkrest

/-- A task with an unregistered dependency is recorded `skipped` by the
time the loop finishes without an escaped exception. -/
lemma executeLoop_records_skip (tasks : TaskGraph)
    (acts : String → List (String × Value) → Nat → Outcome)
    (name : String) (t : AutomationTask) (d : String)
    (hf : findTask tasks name = some t) (hd : d ∈ t.depends_on)
    (hdreg : isRegistered tasks d = false) :
    ∀ (order : List String) (st : RunState),
    (∀ n ∈ order, isRegistered tasks n = true) →
    (∀ kv ∈ st.results, isRegistered tasks kv.1 = true) →
    (name ∈ order ∨ dictGet st.results name = some (skippedResult name)) →
    (executeLoop tasks acts order st).2 = none →
    dictGet (executeLoop tasks acts order st).1.results name =
      some (skippedResult name) := by
  intro order
  induction order with
  | nil =>
    intro st _ _ hmem _
    rcases hmem with h | h
    · exact absurd h (List.not_mem_nil name)
    · exact h
  | cons n2 rest ihr =>
    intro st horder hkeys hmem hdone
    have hn2reg := horder n2 (List.mem_cons_self _ _)
    have horder2 : ∀ n3 ∈ rest, isRegistered tasks n3 = true :=
      fun n3 h3 => horder n3 (List.mem_cons_of_mem _ h3)
    by_cases hne : n2 = name
    · subst hne
      have hdep2 : dependencies_met st.results t = false := by
        cases hb : dependencies_met st.results t with
        | false => rfl
        | true =>
          exfalso
          obtain ⟨kv, hkv, hkvd⟩ := dep_completed_of_met st.results t hb d hd
          have h5 := hkeys kv hkv
          rw [hkvd] at h5
          rw [h5] at hdreg
          exact absurd hdreg (by simp)
      rw [executeLoop_skip tasks acts n2 rest st t hf hdep2] at hdone ⊢
      by_cases hrest : n2 ∈ rest
      · apply ihr _ horder2 _ (Or.inl hrest) hdone
        intro kv hkv
        rcases mem_dictInsert st.results n2 (skippedResult n2) kv hkv with h1 | h2
        · rw [h1]; exact hn2reg
        · exact hkeys kv h2
      · apply executeLoop_get_preserved
        · show dictGet (dictInsert st.results n2 (skippedResult n2)) n2 =
            some (skippedResult n2)
          exact dictGet_dictInsert_self st.results n2 (skippedResult n2)
        · exact hrest
    · have hmem2 : name ∈ rest ∨ dictGet st.results name = some (skippedResult name) := by
        rcases hmem with h | h
        · rcases List.mem_cons.mp h with he | hr
          · exact absurd he.symm hne
          · exact Or.inl hr
        · exact Or.inr h
      cases hf2 : findTask tasks n2 with
      | none =>
        rw [executeLoop_not_found tasks acts n2 rest st hf2] at hdone ⊢
        exact ihr st horder2 hkeys hmem2 hdone
      | some t2 =>
        by_cases hdep : dependencies_met st.results t2 = true
        · cases hres : (execute_task t2 (acts n2 st.context)).1 with
          | error msg =>
            rw [executeLoop_err tasks acts n2 rest st t2 msg hf2 hdep hres] at hdone
            exact absurd hdone (by simp)
          | ok res =>
            rw [executeLoop_ok tasks acts n2 rest st t2 res hf2 hdep hres] at hdone ⊢
            apply ihr _ _ _ _ hdone
            · exact horder2
            · intro kv hkv
              rcases mem_dictInsert st.results n2 res kv hkv with h1 | h2
              · rw [h1]; exact hn2reg
              · exact hkeys kv h2
            · rcases hmem2 with h | h
              · exact Or.inl h
              · refine Or.inr ?_
                show dictGet (dictInsert st.results n2 res) name = some (skippedResult name)
                rw [dictGet_dictInsert_ne st.results name n2 res (fun he => hne he.symm)]
                exact h
        · have hdep2 : dependencies_met st.results t2 = false := by
            cases hb : dependencies_met st.results t2 with
            | false => rfl
            | true => exact absurd hb hdep
          rw [executeLoop_skip tasks acts n2 rest st t2 hf2 hdep2] at hdone ⊢
          apply ihr _ _ _ _ hdone
          · exact horder2
          · intro kv hkv
            rcases mem_dictInsert st.results n2 (skippedResult n2) kv hkv with h1 | h2
            · rw [h1]; exact hn2reg
            · exact hkeys kv h2
          · rcases hmem2 with h | h
            · exact Or.inl h
            · refine Or.inr ?_
              show dictGet (dictInsert st.results n2 (skippedResult n2)) name =
                some (skippedResult name)
              rw [dictGet_dictInsert_ne st.results name n2 (skippedResult n2)
                (fun he => hne he.symm)]
              exact h

lemma execute_match_fst (run : RunState × Option String) :
    ((match run.2 with
      | some msg => (run.1, (Except.error msg : Except String WorkflowResult))
      | none => (run.1, Except.ok (mkWorkflowResult run.1.results)))).1 = run.1 := by
  rcases run with ⟨st, o⟩
  cases o <;> rfl

lemma execute_match_ok (run : RunState × Option String) (wr : WorkflowResult)
    (h : ((match run.2 with
      | some msg => (run.1, (Except.error msg : Except String WorkflowResult))
      | none => (run.1, Except.ok (mkWorkflowResult run.1.results)))).2 =
        Except.ok wr) :
    run.2 = none := by
  rcases run with ⟨st, o⟩
  cases o with
  | none => rfl
  | some msg => exact absurd h (by simp)

lemma execute_fst (tasks : TaskGraph)
    (acts : String → List (String × Value) → Nat → Outcome)
    (ctx : List (String × Value)) :
    (execute tasks acts ctx).1 =
      (executeLoop tasks acts (resolve_order tasks)
        { results := [], context := ctx, invoked := [] }).1 :=
  execute_match_fst (executeLoop tasks acts (resolve_order tasks)
    { results := [], context := ctx, invoked := [] })

lemma execute_ok_completes (tasks : TaskGraph)
    (acts : String → List (String × Value) → Nat → Outcome)
    (ctx : List (String × Value)) (wr : WorkflowResult)
    (h : (execute tasks acts ctx).2 = Except.ok wr) :
    (executeLoop tasks acts (resolve_order tasks)
      { results := [], context := ctx, invoked := [] }).2 = none :=
  execute_match_ok (executeLoop tasks acts (resolve_order tasks)
    { results := [], context := ctx, invoked := [] }) wr h

/-- C3: a task reached with not all dependencies present in the result set
as `completed` is recorded `skipped` (reason: dependencies not met), the
loop moves on without invoking its action, and the other parts of the
state are untouched by the step; moreover a task declaring a dependency
on a name never registered in the graph is never invoked at all, and
whenever `execute` returns a `WorkflowResult` that task is recorded with
status `skipped`. -/
theorem c3_unmet_dependencies_skip (tasks : TaskGraph)
    (acts : String → List (String × Value) → Nat → Outcome)
    (ctx : List (String × Value)) :
    (∀ (name : String) (rest : List String) (st : RunState) (t : AutomationTask),
       findTask tasks name = some t → dependencies_met st.results t = false →
       executeLoop tasks acts (name :: rest) st =
         executeLoop tasks acts rest
           { st with results := dictInsert st.results name (skippedResult name) } ∧
       dictGet (dictInsert st.results name (skippedResult name)) name =
         some (skippedResult name)) ∧
    (∀ (name : String) (t : AutomationTask) (d : String),
       findTask tasks name = some t → d ∈ t.depends_on →
       isRegistered tasks d = false →
       (∀ e ∈ (execute tasks acts ctx).1.invoked, e.1 ≠ name) ∧
       (∀ wr : WorkflowResult, (execute tasks acts ctx).2 = Except.ok wr →
         dictGet (execute tasks acts ctx).1.results name =
           some (skippedResult name))) := by
  constructor
  · intro name rest st t ht hdep
    exact ⟨executeLoop_skip tasks acts name rest st t ht hdep,
      dictGet_dictInsert_self st.results name (skippedResult name)⟩
  · intro name t d hf hd hdreg
    constructor
    · rw [execute_fst]
      exact (executeLoop_no_invoke tasks acts name t d hf hd hdreg
        (resolve_order tasks) { results := [], context := ctx, invoked := [] }
        (resolve_order_registered tasks)
        (fun kv hkv => absurd hkv (List.not_mem_nil kv))
        (fun e he => absurd he (List.not_mem_nil e))).1
    · intro wr hok
      rw [execute_fst]
      apply executeLoop_records_skip tasks acts name t d hf hd hdreg
        (resolve_order tasks) { results := [], context := ctx, invoked := [] }
        (resolve_order_registered tasks)
        (fun kv hkv => absurd hkv (List.not_mem_nil kv))
        (Or.inl (resolve_order_complete tasks name (by rw [isRegistered, hf]; rfl)))
        (execute_ok_completes tasks acts ctx wr hok)

/-- Witness for C3: a single task `w` depending on the never-registered
name `missing`; the run completes and `w` is recorded skipped. -/
theorem c3_unmet_dependencies_skip_witness :
    dictGet (execute [{ name := "w", depends_on := ["missing"] }]
      (fun _ _ _ => Outcome.ok (Value.vint 1)) []).1.results "w" =
      some (skippedResult "w") :=
  ((c3_unmet_dependencies_skip [{ name := "w", depends_on := ["missing"] }]
    (fun _ _ _ => Outcome.ok (Value.vint 1)) []).2 "w"
    { name := "w", depends_on := ["missing"] } "missing" rfl (by simp) rfl).2
    { total_tasks := 1, completed := 0, failed := 0, skipped := 1,
      task_results := [skippedResult "w"] } rfl

end Automation
